import Mathlib

/-!
# faas-cli: template expansion, archive cleanup, header parsing

A shallow embedding of

* `commands/fetch_templates.go`: `expandTemplatesFromZip`, `removeArchive`,
  `writeFile`, `createPath`, `canWriteLanguage`, `checkLanguage`;
* `proxy/invoke.go`: `parseHeaders`.

Go strings are lists of characters.  The operating system (package `os`,
`io`, `archive/zip`) is a record of functions over an abstract world type, so
every theorem stated over `OS σ` holds whatever the file system does; an
in-memory POSIX file tree `memOS` (permission bits, umask, working directory)
instantiates the record for the scenarios.
-/

namespace FaasCli

/-! ## Strings -/

/-- A Go string. -/
abbrev GoString := List Char

/-- A Go `error` value that is not nil. -/
abbrev Error := String

/-- The Go test `len(s) >= len(p) && s[:len(p)] == p`. -/
def startsWith : GoString → GoString → Bool
  | [], _ => true
  | _ :: _, [] => false
  | a :: p, b :: s => a == b && startsWith p s

/-- Go `strings.Index(s, substr)`: the index of the first occurrence of
`substr` in `s`, or `-1`. -/
def stringsIndex : GoString → GoString → Int
  | [], substr => if startsWith substr [] then 0 else -1
  | c :: t, substr =>
    if startsWith substr (c :: t) then 0
    else if stringsIndex t substr < 0 then -1 else stringsIndex t substr + 1

/-- Go `strings.Split(s, sep)` for a separator of one byte, the only kind the
program passes (`"/"` and `"="`). -/
def stringsSplit : GoString → Char → List GoString
  | [], _ => [[]]
  | c :: t, sep =>
    if c = sep then [] :: stringsSplit t sep
    else
      match stringsSplit t sep with
      | [] => [[c]]
      | h :: r => (c :: h) :: r

/-- Go index expression `l[i]` on a slice of strings, for an index in range. -/
def elemAt (l : List GoString) (i : Nat) : GoString := l.getD i []

/-- Go slice expression `s[i:]` for an index computed as an `int`. -/
def sliceFrom (s : GoString) (i : Int) : GoString := s.drop i.toNat

/-! ## Data model -/

deriving instance DecidableEq for Except

/-- One `*zip.File` of the archive: its header fields and what `Open()`
returns for it (the uncompressed content stream, or an error). -/
structure File where
  Name : GoString
  Mode : Nat
  UncompressedSize64 : Nat
  Open : Except Error (List Nat)
  deriving DecidableEq

/-- The calls of package `os`, `io` and `archive/zip` the program makes, over
a world `σ`.  A call that can change the file system returns the new world
together with its error (`none` is Go's `nil`). -/
structure OS (σ : Type) where
  /-- The error of `os.Stat(name)`; every caller discards the `FileInfo`. -/
  Stat : σ → GoString → Option Error
  /-- Go `os.MkdirAll(path, perm)`. -/
  MkdirAll : σ → GoString → Nat → σ × Option Error
  /-- Go `os.OpenFile(name, os.O_WRONLY|os.O_CREATE|os.O_TRUNC, perm)`. -/
  OpenFile : σ → GoString → Nat → σ × Option Error
  /-- Go `io.CopyN(f, rc, n)` for the file `f` just opened at `name`. -/
  CopyN : σ → GoString → List Nat → Int → σ × Option Error
  /-- Go `os.Remove(name)`. -/
  Remove : σ → GoString → σ × Option Error
  /-- Go `zip.OpenReader(name)`, reduced to the `File` list it yields. -/
  OpenReader : σ → GoString → Except Error (List File)

/-- The constant `templateDirectory`. -/
def templateDirectory : GoString := "./template/".toList

/-- The string literal `"template/"`. -/
def templateSlash : GoString := "template/".toList

/-- The constant `rootLanguageDirSplitCount`. -/
def rootLanguageDirSplitCount : Nat := 3

/-- The `map[string]bool` held in `availableLanguages`. -/
abbrev Cache := GoString → Option Bool

/-- The map assignment `m[k] = v`. -/
def Cache.set (m : Cache) (k : GoString) (v : Bool) : Cache :=
  fun k' => if k' = k then some v else m k'

/-- The empty map `make(map[string]bool)`. -/
def Cache.empty : Cache := fun _ => none

/-! ## The overwrite policy -/

/-- Source `checkLanguage`. -/
def checkLanguage {σ : Type} (os : OS σ) (w : σ) (language : GoString)
    (overwrite : Bool) : Bool :=
  let dir := templateDirectory ++ language
  if (os.Stat w dir).isNone && !overwrite then false else true

/-- Source `canWriteLanguage`.  The pointer `availableLanguages` is an
`Option` (`none` is the nil pointer); the map after the call is returned next
to the result. -/
def canWriteLanguage {σ : Type} (os : OS σ) (w : σ)
    (availableLanguages : Option Cache) (language : GoString)
    (overwrite : Bool) : Bool × Option Cache :=
  match availableLanguages with
  | none => (false, none)
  | some m =>
    if language.length > 0 then
      match m language with
      | some v => (v, some m)
      | none =>
        let canWrite := checkLanguage os w language overwrite
        (canWrite, some (m.set language canWrite))
    else (false, some m)

/-! ## Writing to disk -/

/-- The conversion `int64(size)` of a `uint64`. -/
def int64 (size : Nat) : Int :=
  if size % 2 ^ 64 < 2 ^ 63 then (size % 2 ^ 64 : Nat) else (size % 2 ^ 64 : Nat) - 2 ^ 64

/-- One step of the lexical clean-up of Go `filepath.Clean` over the path
elements read so far (`stack`, innermost element first). -/
def cleanStep (rooted : Bool) (stack : List GoString) (seg : GoString) : List GoString :=
  if seg = [] ∨ seg = ['.'] then stack
  else if seg = ['.', '.'] then
    match stack with
    | [] => if rooted then [] else [seg]
    | top :: below => if top = ['.', '.'] then seg :: stack else below
  else seg :: stack

/-- Go `filepath.Dir(path)` on a slash-separated path: `filepath.Clean` of
everything up to the last separator, which is `"."` when nothing is left. -/
def filepathDir (path : GoString) : GoString :=
  let rooted := startsWith ['/'] path
  let kept := (((stringsSplit path '/').dropLast).foldl (cleanStep rooted) []).reverse
  if rooted then '/' :: List.intercalate ['/'] kept
  else if kept = [] then ['.'] else List.intercalate ['/'] kept

/-- Source `createPath`. -/
def createPath {σ : Type} (os : OS σ) (w : σ) (relativePath : GoString)
    (perms : Nat) : σ × Option Error :=
  let dir := filepathDir relativePath
  os.MkdirAll w dir perms

/-- Source `writeFile`; the deferred `Close` calls have no effect here. -/
def writeFile {σ : Type} (os : OS σ) (w : σ) (rc : List Nat) (size : Nat)
    (relativePath : GoString) (perms : Nat) : σ × Option Error :=
  match os.OpenFile w relativePath perms with
  | (w1, some err) => (w1, some err)
  | (w1, none) => os.CopyN w1 relativePath rc (int64 size)

/-! ## Expansion -/

/-- A call the expansion made on behalf of an archive entry (`z.Open()`,
`createPath`, `writeFile`), with the error it returned. -/
inductive Call where
  | zipOpen (z : File) (err : Option Error)
  | createPath (z : File) (relativePath : GoString) (perms : Nat) (err : Option Error)
  | writeFile (z : File) (relativePath : GoString) (perms : Nat) (size : Nat)
      (err : Option Error)
  deriving DecidableEq

/-- The entry a call was made for. -/
def Call.entry : Call → File
  | .zipOpen z _ => z
  | .createPath z _ _ _ => z
  | .writeFile z _ _ _ _ => z

/-- The local variables of `expandTemplatesFromZip` during the loop, the
world, and (a ghost field the program never reads) the calls made so far,
oldest first. -/
structure RunState (σ : Type) where
  availableLanguages : Cache
  existingLanguages : List GoString
  fetchedLanguages : List GoString
  world : σ
  calls : List Call

/-- The state at loop entry. -/
def RunState.init {σ : Type} (w : σ) : RunState σ :=
  { availableLanguages := Cache.empty, existingLanguages := [], fetchedLanguages := [],
    world := w, calls := [] }

/-- How one pass through the loop body ends: at its end or a `continue`
(`next`), at a `break` (`brk`), or at `return nil, nil, err` (`ret`). -/
inductive Flow (σ : Type) where
  | next (s : RunState σ)
  | brk (s : RunState σ)
  | ret (s : RunState σ) (err : Error)

/-- The expression `z.Name[strings.Index(z.Name, "/")+1:]`. -/
def relativePathOf (z : File) : GoString :=
  sliceFrom z.Name (stringsIndex z.Name ['/'] + 1)

/-- The expression `relativePath[len(relativePath)-1:] == "/"`. -/
def endsInSlash (relativePath : GoString) : Bool :=
  sliceFrom relativePath ((relativePath.length : Int) - 1) == ['/']

/-- The first half of the loop body, from `strings.Index(relativePath,
"template/")` to the end of the `if pathSplit ...` statement: `none` where the
body reaches a `continue`, otherwise the value of `isDirectory`.  The map
behind the pointer `&availableLanguages` is read back after each call of
`canWriteLanguage`. -/
def classify {σ : Type} (os : OS σ) (overwrite : Bool) (relativePath : GoString)
    (s : RunState σ) : RunState σ × Option Bool :=
  if stringsIndex relativePath templateSlash ≠ 0 then (s, none)
  else
    let pathSplit := stringsSplit relativePath '/'
    if pathSplit.length > 2 then
      let language := elemAt pathSplit 1
      let isDirectory := endsInSlash relativePath
      if pathSplit.length = rootLanguageDirSplitCount && isDirectory then
        let r := canWriteLanguage os s.world (some s.availableLanguages) language overwrite
        let s1 := { s with availableLanguages := r.2.getD s.availableLanguages }
        if !r.1 then
          ({ s1 with existingLanguages := s1.existingLanguages ++ [language] }, none)
        else ({ s1 with fetchedLanguages := s1.fetchedLanguages ++ [language] }, some isDirectory)
      else
        let r := canWriteLanguage os s.world (some s.availableLanguages) language overwrite
        let s1 := { s with availableLanguages := r.2.getD s.availableLanguages }
        if !r.1 then (s1, none) else (s1, some isDirectory)
    else (s, none)

/-- The second half of the loop body, from `z.Open()` on. -/
def materialize {σ : Type} (os : OS σ) (z : File) (relativePath : GoString)
    (isDirectory : Bool) (s : RunState σ) : Flow σ :=
  match z.Open with
  | .error err => .brk { s with calls := s.calls ++ [Call.zipOpen z (some err)] }
  | .ok rc =>
    let c := createPath os s.world relativePath z.Mode
    let s1 := { s with world := c.1,
                       calls := s.calls ++
                         [Call.zipOpen z none, Call.createPath z relativePath z.Mode c.2] }
    match c.2 with
    | some _ => .brk s1
    | none =>
      if relativePath.length > 1 && !isDirectory then
        let f := writeFile os s1.world rc z.UncompressedSize64 relativePath z.Mode
        let s2 := { s1 with world := f.1,
                            calls := s1.calls ++
                              [Call.writeFile z relativePath z.Mode z.UncompressedSize64 f.2] }
        match f.2 with
        | some err => .ret s2 err
        | none => .next s2
      else .next s1

/-- The body of `for _, z := range zipFile.File`. -/
def expandEntry {σ : Type} (os : OS σ) (overwrite : Bool) (z : File)
    (s : RunState σ) : Flow σ :=
  let relativePath := relativePathOf z
  match classify os overwrite relativePath s with
  | (s1, none) => .next s1
  | (s1, some isDirectory) => materialize os z relativePath isDirectory s1

/-- The loop `for _, z := range zipFile.File`: the state when it is left and
the error of a `return` taken inside it. -/
def expandLoop {σ : Type} (os : OS σ) (overwrite : Bool) :
    List File → RunState σ → RunState σ × Option Error
  | [], s => (s, none)
  | z :: zs, s =>
    match expandEntry os overwrite z s with
    | .next s1 => expandLoop os overwrite zs s1
    | .brk s1 => (s1, none)
    | .ret s1 err => (s1, some err)

/-- What `expandTemplatesFromZip` returns, and the state it leaves. -/
structure Expansion (σ : Type) where
  existingLanguages : List GoString
  fetchedLanguages : List GoString
  err : Option Error
  final : RunState σ

/-- Source `expandTemplatesFromZip`, run in world `w`. -/
def expandTemplatesFromZip {σ : Type} (os : OS σ) (w : σ) (archive : GoString)
    (overwrite : Bool) : Expansion σ :=
  match os.OpenReader w archive with
  | .error err =>
    { existingLanguages := [], fetchedLanguages := [], err := some err,
      final := RunState.init w }
  | .ok files =>
    match expandLoop os overwrite files (RunState.init w) with
    | (s, some err) =>
      { existingLanguages := [], fetchedLanguages := [], err := some err, final := s }
    | (s, none) =>
      { existingLanguages := s.existingLanguages, fetchedLanguages := s.fetchedLanguages,
        err := none, final := s }

/-- Source `removeArchive`: the error returned and the world left. -/
def removeArchive {σ : Type} (os : OS σ) (w : σ) (archive : GoString) : σ × Option Error :=
  match os.Stat w archive with
  | none => os.Remove w archive
  | some err => (w, some err)

/-! ## Header parsing (`proxy/invoke.go`) -/

/-- A `map[string]string`. -/
abbrev HeaderMap := GoString → Option GoString

/-- The loop `for _, header := range headers` of `parseHeaders`, started with
`headerMap`. -/
def parseHeadersLoop : List GoString → HeaderMap → HeaderMap × Option Error
  | [], headerMap => (headerMap, none)
  | header :: rest, headerMap =>
    let headerValues := stringsSplit header '='
    if headerValues.length ≠ 2 then
      (headerMap, some "the --header or -H flag must take the form of key=value")
    else
      let name := elemAt headerValues 0
      let value := elemAt headerValues 1
      if name = [] then
        (headerMap,
          some "the --header or -H flag must take the form of key=value (empty key given)")
      else if value = [] then
        (headerMap,
          some "the --header or -H flag must take the form of key=value (empty value given)")
      else parseHeadersLoop rest (fun k => if k = name then some value else headerMap k)

/-- Source `parseHeaders`. -/
def parseHeaders (headers : List GoString) : HeaderMap × Option Error :=
  parseHeadersLoop headers (fun _ => none)

/-! ## An in-memory file system

Model of a POSIX file tree for the scenarios: directories and regular files
with their permission bits, a working directory, the process umask and
whether the process is the superuser.  Every node below the root belongs to
the user of the process, so the owner bits of its mode decide; the root
directory is searchable but not writable.  Links, set-id and sticky bits are
not modelled. -/

/-- A directory with its mode, or a regular file with mode and content. -/
inductive Node where
  | dir (mode : Nat)
  | file (mode : Nat) (content : List Nat)
  deriving DecidableEq

/-- A location: the names from the root directory downwards; `[]` is the
root directory. -/
abbrev Path := List GoString

/-- The nodes below the root (the first binding of a path is the current
one), the working directory, the umask and the superuser flag. -/
structure MemFS where
  nodes : List (Path × Node)
  cwd : Path
  umask : Nat
  superuser : Bool
  deriving DecidableEq

/-- The first binding of a location in a list of bindings. -/
def lookupNode : List (Path × Node) → Path → Option Node
  | [], _ => none
  | (q, n) :: l, p => if q = p then some n else lookupNode l p

/-- The node at a location; the root directory has mode `0555`. -/
def nodeAt (fs : MemFS) (p : Path) : Option Node :=
  if p = [] then some (Node.dir 365) else lookupNode fs.nodes p

/-- The file system with a node bound at a location. -/
def MemFS.put (fs : MemFS) (p : Path) (n : Node) : MemFS :=
  { fs with nodes := (p, n) :: fs.nodes }

/-- Search permission on a directory of the given mode (owner bit `0100`). -/
def maySearch (fs : MemFS) (mode : Nat) : Bool :=
  fs.superuser || decide (mode / 64 % 2 = 1)

/-- Write permission on a node of the given mode (owner bit `0200`). -/
def mayWrite (fs : MemFS) (mode : Nat) : Bool :=
  fs.superuser || decide (mode / 128 % 2 = 1)

/-- The mode a new node gets: the permission bits of `perm` that the umask
does not clear. -/
def createMode (fs : MemFS) (perm : Nat) : Nat :=
  Nat.land (perm % 512) (511 - fs.umask % 512)

/-- Path resolution from location `cur` along the remaining path elements.
An empty element is passed over; any other is looked up in `cur`, which must
be a directory the process may search: `.` stays, `..` goes to the parent,
a name goes down (the named node itself need not exist). -/
def walk (fs : MemFS) : List GoString → Path → Option Path
  | [], cur => some cur
  | seg :: rest, cur =>
    if seg = [] then walk fs rest cur
    else
      match nodeAt fs cur with
      | some (.dir m) =>
        if !maySearch fs m then none
        else if seg = ['.'] then walk fs rest cur
        else if seg = ['.', '.'] then walk fs rest cur.dropLast
        else walk fs rest (cur ++ [seg])
      | _ => none

/-- Where resolution of a path string starts: the root for an absolute path,
the working directory otherwise. -/
def startOf (fs : MemFS) (name : GoString) : Path :=
  if startsWith ['/'] name then [] else fs.cwd

/-- The location a path string names, when the directories on the way exist
and may be searched; the empty string names nothing. -/
def resolve (fs : MemFS) (name : GoString) : Option Path :=
  if name = [] then none else walk fs (stringsSplit name '/') (startOf fs name)

/-- Model of `os.Stat`: the path must resolve to an existing node, a
directory if the path ends in a slash. -/
def memStat (fs : MemFS) (name : GoString) : Option Error :=
  match resolve fs name with
  | none => some "no such file or directory"
  | some p =>
    match nodeAt fs p with
    | none => some "no such file or directory"
    | some (.dir _) => none
    | some (.file _ _) => if endsInSlash name then some "not a directory" else none

/-- Model of `os.MkdirAll` along the path elements: an existing directory is
kept, a missing one is made in its parent (which the process must be allowed
to search and to write) with the mode `createMode` gives, a regular file in
the way is an error. -/
def mkdirWalk (perm : Nat) : List GoString → Path → MemFS → MemFS × Option Error
  | [], _, fs => (fs, none)
  | seg :: rest, cur, fs =>
    if seg = [] then mkdirWalk perm rest cur fs
    else
      match nodeAt fs cur with
      | some (.dir m) =>
        if !maySearch fs m then (fs, some "permission denied")
        else if seg = ['.'] then mkdirWalk perm rest cur fs
        else if seg = ['.', '.'] then mkdirWalk perm rest cur.dropLast fs
        else
          match nodeAt fs (cur ++ [seg]) with
          | some (.dir _) => mkdirWalk perm rest (cur ++ [seg]) fs
          | some (.file _ _) => (fs, some "not a directory")
          | none =>
            if !mayWrite fs m then (fs, some "permission denied")
            else mkdirWalk perm rest (cur ++ [seg])
              (fs.put (cur ++ [seg]) (.dir (createMode fs perm)))
      | _ => (fs, some "no such file or directory")

/-- Model of `os.MkdirAll`. -/
def memMkdirAll (fs : MemFS) (name : GoString) (perm : Nat) : MemFS × Option Error :=
  if name = [] then (fs, some "no such file or directory")
  else mkdirWalk perm (stringsSplit name '/') (startOf fs name) fs

/-- Model of `os.OpenFile` with `O_WRONLY|O_CREATE|O_TRUNC`: an existing file
the process may write is emptied and keeps its mode; a missing one is created
in its directory, which the process must be allowed to write, with the mode
`createMode` gives. -/
def memOpenFile (fs : MemFS) (name : GoString) (perm : Nat) : MemFS × Option Error :=
  match resolve fs name with
  | none => (fs, some "no such file or directory")
  | some p =>
    if endsInSlash name then (fs, some "is a directory")
    else
      match nodeAt fs p with
      | some (.dir _) => (fs, some "is a directory")
      | some (.file m _) =>
        if mayWrite fs m then (fs.put p (.file m []), none)
        else (fs, some "permission denied")
      | none =>
        match nodeAt fs p.dropLast with
        | some (.dir pm) =>
          if mayWrite fs pm then (fs.put p (.file (createMode fs perm) []), none)
          else (fs, some "permission denied")
        | _ => (fs, some "no such file or directory")

/-- Model of `io.CopyN(f, rc, n)` for the file opened at `name`: the first `n`
bytes of `rc` are appended to the file; fewer than `n` bytes in `rc` is the
error `EOF`; a negative `n` copies nothing and is no error. -/
def memCopyN (fs : MemFS) (name : GoString) (rc : List Nat) (n : Int) : MemFS × Option Error :=
  match resolve fs name with
  | none => (fs, some "bad file descriptor")
  | some p =>
    match nodeAt fs p with
    | some (.file m c) =>
      (fs.put p (.file m (c ++ rc.take n.toNat)),
        if n ≤ 0 ∨ (rc.take n.toNat).length = n.toNat then none else some "EOF")
    | _ => (fs, some "bad file descriptor")

/-- Model of `os.Remove`: a file or an empty directory is unlinked from its
directory, which the process must be allowed to write. -/
def memRemove (fs : MemFS) (name : GoString) : MemFS × Option Error :=
  match resolve fs name with
  | none => (fs, some "no such file or directory")
  | some p =>
    match nodeAt fs p, nodeAt fs p.dropLast with
    | some n, some (.dir pm) =>
      if p = [] then (fs, some "device or resource busy")
      else if !mayWrite fs pm then (fs, some "permission denied")
      else if fs.nodes.any (fun e => decide (p <+: e.1 ∧ e.1 ≠ p)) then
        (fs, some "directory not empty")
      else
        match n with
        | .dir _ => ({ fs with nodes := fs.nodes.filter (fun e => decide (e.1 ≠ p)) }, none)
        | .file _ _ =>
          if endsInSlash name then (fs, some "not a directory")
          else ({ fs with nodes := fs.nodes.filter (fun e => decide (e.1 ≠ p)) }, none)
    | _, _ => (fs, some "no such file or directory")

/-- The in-memory file system as an `OS`; `archive` is what opening the zip
file yields. -/
def memOS (archive : Except Error (List File)) : OS MemFS where
  Stat := memStat
  MkdirAll := memMkdirAll
  OpenFile := memOpenFile
  CopyN := memCopyN
  Remove := memRemove
  OpenReader := fun _ _ => archive

/-! ## Vocabulary of the theorems -/

/-- The state a pass through the loop body ends in. -/
def Flow.state {σ : Type} : Flow σ → RunState σ
  | .next s => s
  | .brk s => s
  | .ret s _ => s

/-- The variable `language` of the loop body: the second element of the
relative path split at `/`. -/
def languageOf (z : File) : GoString :=
  elemAt (stringsSplit (relativePathOf z) '/') 1

/-- Whether an entry is a language root directory entry: its relative path
is `template/<language>/`. -/
def isLanguageRoot (z : File) : Bool :=
  stringsIndex (relativePathOf z) templateSlash = 0 &&
    ((stringsSplit (relativePathOf z) '/').length = rootLanguageDirSplitCount &&
      endsInSlash (relativePathOf z))

/-- The languages of the language root directory entries of an archive, in
archive order. -/
def rootLanguages (files : List File) : List GoString :=
  (files.filter isLanguageRoot).map languageOf

/-- The text of a header before its first `=`. -/
def headerKey (header : GoString) : GoString :=
  header.takeWhile (fun c => decide (c ≠ '='))

/-- The text of a header after its first `=`. -/
def headerValue (header : GoString) : GoString :=
  (header.dropWhile (fun c => decide (c ≠ '='))).drop 1

/-- A header with exactly one `=` and text that is not empty on both sides
of it. -/
def WellFormedHeader (header : GoString) : Prop :=
  header.count '=' = 1 ∧ headerKey header ≠ [] ∧ headerValue header ≠ []

instance (header : GoString) : Decidable (WellFormedHeader header) := by
  unfold WellFormedHeader
  infer_instance

/-- The value of the last header of the list whose key is `k`. -/
def lastValue (headers : List GoString) (k : GoString) : Option GoString :=
  (headers.reverse.find? (fun header => decide (headerKey header = k))).map headerValue

/-- The error a logged call returned. -/
def Call.err : Call → Option Error
  | .zipOpen _ e => e
  | .createPath _ _ _ e => e
  | .writeFile _ _ _ _ e => e

/-- The calls a fully materialized entry makes, all without error:
`z.Open()`, `createPath`, then `writeFile` unless the entry is a directory. -/
def materializedCalls (z : File) : List Call :=
  Call.zipOpen z none :: Call.createPath z (relativePathOf z) z.Mode none ::
    if endsInSlash (relativePathOf z) then []
    else [Call.writeFile z (relativePathOf z) z.Mode z.UncompressedSize64 none]

/-! ## Example archives and working directories -/

/-- The directory entry `root/template/go/`, mode `ModeDir | 0755`. -/
def goDir : File := ⟨"root/template/go/".toList, 2147484141, 0, .ok []⟩

/-- The file entry `root/template/go/handler.go`, mode `0644`. -/
def goHandler : File := ⟨"root/template/go/handler.go".toList, 420, 3, .ok [112, 107, 103]⟩

/-- The directory entry `root/template/node/`, mode `ModeDir | 0755`. -/
def nodeDir : File := ⟨"root/template/node/".toList, 2147484141, 0, .ok []⟩

/-- The file entry `root/template/node/handler.js`, mode `0755`. -/
def nodeHandler : File := ⟨"root/template/node/handler.js".toList, 493, 2, .ok [47, 47]⟩

/-- The file entry `root/template/go/handler.go` with a content that cannot be
opened. -/
def brokenHandler : File :=
  ⟨"root/template/go/handler.go".toList, 420, 3, .error "zip: unsupported compression algorithm"⟩

/-- The file entry `root/template/README.md`, directly under `template/`. -/
def readme : File := ⟨"root/template/README.md".toList, 420, 1, .ok [35]⟩

/-- The name of the downloaded archive. -/
def masterZip : GoString := "master.zip".toList

/-- The working directory `/work`. -/
def work : Path := ["work".toList]

/-- An empty working directory `/work` of mode `0755`, for an ordinary user
with the given umask. -/
def emptyWork (umask : Nat) : MemFS :=
  { nodes := [(work, Node.dir 493)], cwd := work, umask := umask, superuser := false }

/-- A working directory that holds the downloaded archive `master.zip`. -/
def withArchive : MemFS :=
  { nodes := [(work ++ ["master.zip".toList], Node.file 448 [80, 75]), (work, Node.dir 493)],
    cwd := work, umask := 18, superuser := false }

/-- A working directory in which `template` is a regular file. -/
def templateIsFile : MemFS :=
  { nodes := [(work ++ ["template".toList], Node.file 420 []), (work, Node.dir 493)],
    cwd := work, umask := 18, superuser := false }

/-- A working directory in which `./template/go/handler.go` exists. -/
def withGo : MemFS :=
  { nodes :=
      [(work ++ ["template".toList, "go".toList, "handler.go".toList],
          Node.file 420 [1, 2, 3]),
       (work ++ ["template".toList, "go".toList], Node.dir 493),
       (work ++ ["template".toList], Node.dir 493),
       (work, Node.dir 493)],
    cwd := work, umask := 18, superuser := false }

/-- A file entry of language `node` whose path climbs into `template/go`. -/
def climbing : File := ⟨"root/template/node/../go/handler.go".toList, 420, 1, .ok [9]⟩

/-- The three calls that change the file system keep `os.Stat name`
succeeding once it succeeds. -/
def StatStable {σ : Type} (os : OS σ) (name : GoString) : Prop :=
  (∀ w p m, os.Stat w name = none → os.Stat (os.MkdirAll w p m).1 name = none) ∧
  (∀ w p m, os.Stat w name = none → os.Stat (os.OpenFile w p m).1 name = none) ∧
  (∀ w p rc n, os.Stat w name = none → os.Stat (os.CopyN w p rc n).1 name = none)

/-- The loop invariant for a language `L` that cannot be written:
`./template/L` exists, the cache does not say `true` for `L`, and no call so
far was made for an entry of language `L`. -/
def Denied {σ : Type} (os : OS σ) (L : GoString) (s : RunState σ) : Prop :=
  os.Stat s.world (templateDirectory ++ L) = none ∧
  s.availableLanguages L ≠ some true ∧
  ∀ c ∈ s.calls, languageOf c.entry ≠ L

/-- The file system `fs1` extends `fs`: same working directory, umask and
user; a directory stays that directory, and a file stays a file of the same
mode. -/
def Extends (fs fs1 : MemFS) : Prop :=
  fs1.cwd = fs.cwd ∧ fs1.umask = fs.umask ∧ fs1.superuser = fs.superuser ∧
  ∀ p, (∀ m, nodeAt fs p = some (Node.dir m) → nodeAt fs1 p = some (Node.dir m)) ∧
    (∀ m c, nodeAt fs p = some (Node.file m c) → ∃ c1, nodeAt fs1 p = some (Node.file m c1))

/-- A path element that names something: not empty and not `.`. -/
def isNamed (seg : GoString) : Bool := decide (seg ≠ [] ∧ seg ≠ ['.'])

/-- A plain name: not empty, not `.`, not `..`, without `/`. -/
def PlainName (seg : GoString) : Prop :=
  seg ≠ [] ∧ seg ≠ ['.'] ∧ seg ≠ ['.', '.'] ∧ '/' ∉ seg

/-- No element of the entry's relative path is `..`. -/
def NoDotDot (z : File) : Prop :=
  ['.', '.'] ∉ stringsSplit (relativePathOf z) '/'

/-- The directory name `template`. -/
def templateName : GoString := "template".toList

/-- The location of `./template/L`. -/
def languageDir (fs : MemFS) (L : GoString) : Path := fs.cwd ++ [templateName, L]

/-- At and below `./template/L` the file system `fs1` is as `fs` is. -/
def SameUnder (L : GoString) (fs fs1 : MemFS) : Prop :=
  ∀ p, languageDir fs L <+: p → nodeAt fs1 p = nodeAt fs p

/-- The location a relative path without `..` names: below the working
directory, its elements that name something. -/
def fullPath (fs : MemFS) (rel : GoString) : Path :=
  fs.cwd ++ (stringsSplit rel '/').filter isNamed

instance (seg : GoString) : Decidable (PlainName seg) := by
  unfold PlainName
  infer_instance

instance (z : File) : Decidable (NoDotDot z) := by
  unfold NoDotDot
  infer_instance

/-- The entry `z`, reached in state `s`, is fully materialized in state `s1`:
`z.Open()` succeeds; `os.MkdirAll` of the directory of its relative path, with
the entry's mode, succeeds (the directory chain is created); for a directory
entry that is all; otherwise `os.OpenFile` of the relative path with the
entry's mode succeeds, `io.CopyN` of exactly `UncompressedSize64` bytes of the
content into it succeeds (the content is written), and the world of `s1` is
the world these calls leave.  The log grows by exactly these calls. -/
def Materialized {σ : Type} (os : OS σ) (z : File) (s s1 : RunState σ) : Prop :=
  ∃ rc, z.Open = .ok rc ∧
    (os.MkdirAll s.world (filepathDir (relativePathOf z)) z.Mode).2 = none ∧
    (if endsInSlash (relativePathOf z) = true then
      s1.world = (os.MkdirAll s.world (filepathDir (relativePathOf z)) z.Mode).1
    else
      (os.OpenFile (os.MkdirAll s.world (filepathDir (relativePathOf z)) z.Mode).1
        (relativePathOf z) z.Mode).2 = none ∧
      (os.CopyN
        (os.OpenFile (os.MkdirAll s.world (filepathDir (relativePathOf z)) z.Mode).1
          (relativePathOf z) z.Mode).1
        (relativePathOf z) rc (z.UncompressedSize64 : Int)).2 = none ∧
      s1.world = (os.CopyN
        (os.OpenFile (os.MkdirAll s.world (filepathDir (relativePathOf z)) z.Mode).1
          (relativePathOf z) z.Mode).1
        (relativePathOf z) rc (z.UncompressedSize64 : Int)).1) ∧
    s1.calls = s.calls ++ materializedCalls z

/-- The entry `z`, reached in state `s`, is skipped entirely: no call is
made and the world is the same in `s1`. -/
def Skipped {σ : Type} (s s1 : RunState σ) : Prop :=
  s1.calls = s.calls ∧ s1.world = s.world

/-- A file entry of language `go` whose header declares `2^63` bytes. -/
def hugeEntry : File := ⟨"root/template/go/huge.bin".toList, 420, 2 ^ 63, .ok [1, 2]⟩

/-! ## The overwrite policy: theorems -/

/-- C4 (claim as stated fails): for the empty language name, absent from the
cache, with the overwrite flag set, `canWriteLanguage` returns `false` and
records nothing. -/
theorem canWriteLanguage_fresh_empty_name :
    (canWriteLanguage (memOS (.ok [])) (emptyWork 18) (some Cache.empty) [] true).1 = false ∧
    ((canWriteLanguage (memOS (.ok [])) (emptyWork 18) (some Cache.empty) [] true).2.bind
      (fun m => m [])) = none := by
  constructor <;> rfl

/-- C4 (amended): for a language name that is not empty and has no decision in
the cache, `canWriteLanguage` returns `true` exactly when `os.Stat` of
`./template/<language>` fails or the overwrite flag is set, and the cache
afterwards maps the language to the returned value and is unchanged
elsewhere. -/
theorem canWriteLanguage_fresh {σ : Type} (os : OS σ) (w : σ) (m : Cache)
    (language : GoString) (overwrite : Bool)
    (hne : language ≠ []) (hm : m language = none) :
    ((canWriteLanguage os w (some m) language overwrite).1 = true ↔
      ((os.Stat w (templateDirectory ++ language)) ≠ none ∨ overwrite = true)) ∧
    ∃ m1, (canWriteLanguage os w (some m) language overwrite).2 = some m1 ∧
      m1 language = some (canWriteLanguage os w (some m) language overwrite).1 ∧
      ∀ k, k ≠ language → m1 k = m k := by
  have hlen : language.length > 0 := List.length_pos.mpr hne
  refine ⟨?_, ?_⟩
  · simp only [canWriteLanguage, hlen, hm, checkLanguage, if_true]
    cases h : os.Stat w (templateDirectory ++ language) <;> cases overwrite <;> simp
  · refine ⟨m.set language (checkLanguage os w language overwrite), ?_, ?_, ?_⟩
    · simp [canWriteLanguage, hlen, hm]
    · simp [canWriteLanguage, hlen, hm, Cache.set]
    · intro k hk
      simp [Cache.set, hk]

/-- C4 (amended), at the language `go` in an empty working directory. -/
theorem canWriteLanguage_fresh_witness :
    ((canWriteLanguage (memOS (.ok [])) (emptyWork 18) (some Cache.empty) "go".toList false).1 = true ↔
      (((memOS (.ok [])).Stat (emptyWork 18) (templateDirectory ++ "go".toList)) ≠ none ∨
        false = true)) ∧
    ∃ m1, (canWriteLanguage (memOS (.ok [])) (emptyWork 18) (some Cache.empty) "go".toList false).2
        = some m1 ∧
      m1 "go".toList
        = some (canWriteLanguage (memOS (.ok [])) (emptyWork 18) (some Cache.empty) "go".toList false).1 ∧
      ∀ k, k ≠ "go".toList → m1 k = Cache.empty k :=
  canWriteLanguage_fresh (memOS (.ok [])) (emptyWork 18) Cache.empty "go".toList false
    (by decide) rfl

/-! ## Cleanup: theorems -/

/-- C9: when `os.Stat` of the archive succeeds, `removeArchive` is exactly the
`os.Remove` call (its world and its error); when `os.Stat` fails, the world is
untouched and the error returned is the one `os.Stat` gave, which is not
nil. -/
theorem removeArchive_spec {σ : Type} (os : OS σ) (w : σ) (archive : GoString) :
    (os.Stat w archive = none → removeArchive os w archive = os.Remove w archive) ∧
    (∀ err, os.Stat w archive = some err →
      removeArchive os w archive = (w, some err) ∧ (removeArchive os w archive).2 ≠ none) := by
  constructor
  · intro h
    simp [removeArchive, h]
  · intro err h
    simp [removeArchive, h]

/-- C9, at an archive that exists and at one that does not. -/
theorem removeArchive_spec_witness :
    removeArchive (memOS (.ok [])) withArchive masterZip
      = (memOS (.ok [])).Remove withArchive masterZip ∧
    (removeArchive (memOS (.ok [])) (emptyWork 18) masterZip
        = (emptyWork 18, some "no such file or directory") ∧
      (removeArchive (memOS (.ok [])) (emptyWork 18) masterZip).2 ≠ none) :=
  ⟨(removeArchive_spec (memOS (.ok [])) withArchive masterZip).1 (by decide),
   (removeArchive_spec (memOS (.ok [])) (emptyWork 18) masterZip).2
      "no such file or directory" (by decide)⟩

/-! ## Expansion: entries outside `template/` -/

/-- An entry the loop body passes by with `continue` can be dropped from the
archive. -/
theorem expandLoop_skip {σ : Type} (os : OS σ) (overwrite : Bool) (z : File)
    (hz : ∀ s : RunState σ, expandEntry os overwrite z s = .next s)
    (pre post : List File) (s0 : RunState σ) :
    expandLoop os overwrite (pre ++ z :: post) s0 = expandLoop os overwrite (pre ++ post) s0 := by
  induction pre generalizing s0 with
  | nil => simp [expandLoop, hz]
  | cons y pre ih =>
    simp only [List.cons_append, expandLoop]
    cases expandEntry os overwrite y s0 with
    | next s1 => exact ih s1
    | brk s1 => rfl
    | ret s1 err => rfl

/-- C8: for an entry whose relative path does not begin with `template/`, the
loop body ends at `continue` with the state it started in (same world, same
calls, same policy cache, same two result lists), so the run is the run of the
archive without that entry. -/
theorem expandEntry_not_template {σ : Type} (os : OS σ) (overwrite : Bool) (z : File)
    (h : stringsIndex (relativePathOf z) templateSlash ≠ 0) :
    (∀ s : RunState σ, expandEntry os overwrite z s = .next s) ∧
    ∀ (pre post : List File) (s0 : RunState σ),
      expandLoop os overwrite (pre ++ z :: post) s0
        = expandLoop os overwrite (pre ++ post) s0 := by
  have hz : ∀ s : RunState σ, expandEntry os overwrite z s = .next s := by
    intro s
    simp [expandEntry, classify, h]
  exact ⟨hz, expandLoop_skip os overwrite z hz⟩

/-- C8, at the entry `root/README.md`. -/
theorem expandEntry_not_template_witness :
    (∀ s : RunState MemFS,
      expandEntry (memOS (.ok [])) false ⟨"root/README.md".toList, 420, 2, .ok [35, 10]⟩ s
        = .next s) ∧
    ∀ (pre post : List File) (s0 : RunState MemFS),
      expandLoop (memOS (.ok [])) false
          (pre ++ ⟨"root/README.md".toList, 420, 2, .ok [35, 10]⟩ :: post) s0
        = expandLoop (memOS (.ok [])) false (pre ++ post) s0 :=
  expandEntry_not_template (memOS (.ok [])) false
    ⟨"root/README.md".toList, 420, 2, .ok [35, 10]⟩ (by decide)

/-! ## Expansion: errors -/

/-- C1 (the code at the failing inputs): in an empty working directory, with
`Open` failing for `root/template/go/handler.go`, the function returns a nil
error and `fetchedLanguages = ["go"]`, and the entries after the failing one
are not processed; with every `Open` succeeding and `template` a regular file,
`createPath` fails for the first entry and the function again returns a nil
error. -/
theorem expandTemplatesFromZip_break_returns_nil :
    ((expandTemplatesFromZip (memOS (.ok [goDir, brokenHandler, nodeDir, nodeHandler]))
        (emptyWork 18) masterZip false).err = none ∧
      (expandTemplatesFromZip (memOS (.ok [goDir, brokenHandler, nodeDir, nodeHandler]))
        (emptyWork 18) masterZip false).fetchedLanguages = ["go".toList] ∧
      (expandTemplatesFromZip (memOS (.ok [goDir, brokenHandler, nodeDir, nodeHandler]))
        (emptyWork 18) masterZip false).final.calls
        = [Call.zipOpen goDir none,
           Call.createPath goDir "template/go/".toList goDir.Mode none,
           Call.zipOpen brokenHandler (some "zip: unsupported compression algorithm")]) ∧
    ((expandTemplatesFromZip (memOS (.ok [goDir, goHandler, nodeDir, nodeHandler]))
        templateIsFile masterZip false).err = none ∧
      (expandTemplatesFromZip (memOS (.ok [goDir, goHandler, nodeDir, nodeHandler]))
        templateIsFile masterZip false).final.calls
        = [Call.zipOpen goDir none,
           Call.createPath goDir "template/go/".toList goDir.Mode
             (some "not a directory")]) := by
  refine ⟨⟨?_, ?_, ?_⟩, ⟨?_, ?_⟩⟩ <;> decide

/-! ## Expansion: the two halves of the loop body -/

theorem classify_world {σ : Type} (os : OS σ) (overwrite : Bool) (rel : GoString)
    (s : RunState σ) : (classify os overwrite rel s).1.world = s.world := by
  simp only [classify]
  split_ifs <;> rfl

theorem classify_calls {σ : Type} (os : OS σ) (overwrite : Bool) (rel : GoString)
    (s : RunState σ) : (classify os overwrite rel s).1.calls = s.calls := by
  simp only [classify]
  split_ifs <;> rfl

theorem classify_result {σ : Type} (os : OS σ) (overwrite : Bool) (rel : GoString)
    (s : RunState σ) :
    (classify os overwrite rel s).2 =
      if stringsIndex rel templateSlash = 0 ∧ 2 < (stringsSplit rel '/').length ∧
          (canWriteLanguage os s.world (some s.availableLanguages)
            (elemAt (stringsSplit rel '/') 1) overwrite).1 = true
      then some (endsInSlash rel) else none := by
  simp only [classify]
  split_ifs <;> simp_all [rootLanguageDirSplitCount]

theorem classify_fetched {σ : Type} (os : OS σ) (overwrite : Bool) (rel : GoString)
    (s : RunState σ) :
    (classify os overwrite rel s).1.fetchedLanguages =
      s.fetchedLanguages ++
        if stringsIndex rel templateSlash = 0 ∧
            ((stringsSplit rel '/').length = rootLanguageDirSplitCount ∧
              endsInSlash rel = true) ∧
            (canWriteLanguage os s.world (some s.availableLanguages)
              (elemAt (stringsSplit rel '/') 1) overwrite).1 = true
        then [elemAt (stringsSplit rel '/') 1] else [] := by
  simp only [classify]
  split_ifs <;> simp_all [rootLanguageDirSplitCount]

theorem classify_cache {σ : Type} (os : OS σ) (overwrite : Bool) (rel : GoString)
    (s : RunState σ) :
    (classify os overwrite rel s).1.availableLanguages =
      if stringsIndex rel templateSlash = 0 ∧ 2 < (stringsSplit rel '/').length
      then (canWriteLanguage os s.world (some s.availableLanguages)
              (elemAt (stringsSplit rel '/') 1) overwrite).2.getD s.availableLanguages
      else s.availableLanguages := by
  simp only [classify]
  split_ifs <;> simp_all [rootLanguageDirSplitCount]

theorem expandEntry_eq {σ : Type} (os : OS σ) (overwrite : Bool) (z : File)
    (s : RunState σ) :
    expandEntry os overwrite z s =
      match (classify os overwrite (relativePathOf z) s).2 with
      | none => .next (classify os overwrite (relativePathOf z) s).1
      | some d => materialize os z (relativePathOf z) d
          (classify os overwrite (relativePathOf z) s).1 := by
  unfold expandEntry
  simp only
  rcases h : classify os overwrite (relativePathOf z) s with ⟨s1, _ | d⟩ <;> rfl

/-! ## Expansion: the list of fetched languages -/

theorem materialize_fetched {σ : Type} (os : OS σ) (z : File) (rel : GoString) (d : Bool)
    (s : RunState σ) :
    (materialize os z rel d s).state.fetchedLanguages = s.fetchedLanguages := by
  unfold materialize
  cases z.Open with
  | error e => rfl
  | ok rc =>
    simp only
    split
    · rfl
    · split
      · split <;> rfl
      · rfl

theorem expandEntry_fetched {σ : Type} (os : OS σ) (overwrite : Bool) (z : File)
    (s : RunState σ) :
    ∃ l, l.Sublist (rootLanguages [z]) ∧
      (expandEntry os overwrite z s).state.fetchedLanguages = s.fetchedLanguages ++ l := by
  have hstate : (expandEntry os overwrite z s).state.fetchedLanguages
      = (classify os overwrite (relativePathOf z) s).1.fetchedLanguages := by
    rw [expandEntry_eq]
    cases (classify os overwrite (relativePathOf z) s).2 with
    | none => rfl
    | some d => exact materialize_fetched os z _ d _
  rw [hstate, classify_fetched]
  split_ifs with hc
  · refine ⟨[languageOf z], ?_, rfl⟩
    have hroot : isLanguageRoot z = true := by
      simp only [isLanguageRoot, Bool.and_eq_true, decide_eq_true_eq]
      exact ⟨hc.1, hc.2.1⟩
    simp [rootLanguages, hroot]
  · exact ⟨[], by simp, rfl⟩

theorem expandLoop_fetched {σ : Type} (os : OS σ) (overwrite : Bool) (files : List File)
    (s : RunState σ) :
    ∃ l, l.Sublist (rootLanguages files) ∧
      (expandLoop os overwrite files s).1.fetchedLanguages = s.fetchedLanguages ++ l := by
  induction files generalizing s with
  | nil => exact ⟨[], by simp [rootLanguages], by simp [expandLoop]⟩
  | cons z zs ih =>
    obtain ⟨l1, hl1, h1⟩ := expandEntry_fetched os overwrite z s
    have hsplit : rootLanguages (z :: zs) = rootLanguages [z] ++ rootLanguages zs := by
      simp only [rootLanguages]
      rw [← List.map_append, ← List.filter_append]
      rfl
    simp only [expandLoop]
    cases h : expandEntry os overwrite z s with
    | next s1 =>
      obtain ⟨l2, hl2, h2⟩ := ih s1
      rw [h] at h1
      refine ⟨l1 ++ l2, ?_, ?_⟩
      · rw [hsplit]; exact List.Sublist.append hl1 hl2
      · simp only [h2]
        simp only [Flow.state] at h1
        rw [h1, List.append_assoc]
    | brk s1 =>
      rw [h] at h1
      refine ⟨l1, ?_, h1⟩
      rw [hsplit]; exact hl1.trans (List.sublist_append_left _ _)
    | ret s1 err =>
      rw [h] at h1
      refine ⟨l1, ?_, h1⟩
      rw [hsplit]; exact hl1.trans (List.sublist_append_left _ _)

/-- C6 (claim as stated fails): for the archive with the two entries
`a/template/go/` and `b/template/go/`, in an empty working directory, the
returned `fetchedLanguages` is `["go", "go"]`. -/
theorem fetchedLanguages_repeats :
    (expandTemplatesFromZip
        (memOS (.ok [⟨"a/template/go/".toList, 493, 0, .ok []⟩,
                     ⟨"b/template/go/".toList, 493, 0, .ok []⟩]))
        (emptyWork 18) masterZip false).fetchedLanguages = ["go".toList, "go".toList] ∧
    ¬ (expandTemplatesFromZip
        (memOS (.ok [⟨"a/template/go/".toList, 493, 0, .ok []⟩,
                     ⟨"b/template/go/".toList, 493, 0, .ok []⟩]))
        (emptyWork 18) masterZip false).fetchedLanguages.Nodup := by
  constructor <;> decide

/-- C6 (amended): when no two language root directory entries of the archive
(`template/<language>/`) have the same language, no language occurs more than
once in the `fetchedLanguages` list `expandTemplatesFromZip` returns, whatever
the file system does. -/
theorem fetchedLanguages_nodup {σ : Type} (os : OS σ) (w : σ) (archive : GoString)
    (overwrite : Bool) (files : List File)
    (hopen : os.OpenReader w archive = .ok files)
    (hroots : (rootLanguages files).Nodup) :
    (expandTemplatesFromZip os w archive overwrite).fetchedLanguages.Nodup := by
  obtain ⟨l, hl, h⟩ := expandLoop_fetched os overwrite files (RunState.init w)
  unfold expandTemplatesFromZip
  rw [hopen]
  simp only
  split
  · exact List.nodup_nil
  · rename_i s heq
    rw [heq] at h
    simp only [RunState.init, List.nil_append] at h
    simp only [h]
    exact hroots.sublist hl

/-- C6 (amended), at the archive of Scenario A with its directory entries. -/
theorem fetchedLanguages_nodup_witness :
    (expandTemplatesFromZip (memOS (.ok [goDir, goHandler, nodeDir, nodeHandler]))
      (emptyWork 18) masterZip false).fetchedLanguages.Nodup :=
  fetchedLanguages_nodup (memOS (.ok [goDir, goHandler, nodeDir, nodeHandler]))
    (emptyWork 18) masterZip false _ rfl (by decide)

/-! ## Header parsing: theorems -/

theorem stringsSplit_length (s : GoString) (c : Char) :
    (stringsSplit s c).length = s.count c + 1 := by
  induction s with
  | nil => simp [stringsSplit]
  | cons x t ih =>
    by_cases hx : x = c
    · subst hx
      simp [stringsSplit, ih]
    · have hcx : ¬ (x == c) = true := by simpa using hx
      simp only [stringsSplit, hx, if_false, List.count_cons, hcx]
      cases h : stringsSplit t c with
      | nil => rw [h] at ih; simp at ih
      | cons a r => rw [h] at ih; simpa using ih

theorem stringsSplit_of_not_mem (s : GoString) (c : Char) (h : c ∉ s) :
    stringsSplit s c = [s] := by
  induction s with
  | nil => rfl
  | cons x t ih =>
    have hx : x ≠ c := fun e => h (by simp [e])
    have ht : c ∉ t := fun e => h (List.mem_cons_of_mem _ e)
    simp [stringsSplit, hx, ih ht]

theorem stringsSplit_first (s : GoString) (c : Char) :
    elemAt (stringsSplit s c) 0 = s.takeWhile (fun x => decide (x ≠ c)) := by
  induction s with
  | nil => rfl
  | cons x t ih =>
    by_cases hx : x = c
    · subst hx
      simp [stringsSplit, elemAt]
    · simp only [stringsSplit, hx, if_false]
      have hlen := stringsSplit_length t c
      cases h : stringsSplit t c with
      | nil => rw [h] at hlen; simp at hlen
      | cons a r =>
        rw [h] at ih
        simp only [elemAt, List.getD_cons_zero] at ih
        simp [elemAt, List.takeWhile_cons, hx, ih]

theorem stringsSplit_second (s : GoString) (c : Char) (h : s.count c = 1) :
    elemAt (stringsSplit s c) 1 = (s.dropWhile (fun x => decide (x ≠ c))).drop 1 := by
  induction s with
  | nil => simp at h
  | cons x t ih =>
    by_cases hx : x = c
    · subst hx
      have ht : x ∉ t := by
        rw [List.count_cons_self] at h
        exact List.count_eq_zero.mp (by omega)
      simp [stringsSplit, stringsSplit_of_not_mem t x ht, elemAt, List.dropWhile_cons]
    · have hcx : ¬ (x == c) = true := by simpa using hx
      have hc : t.count c = 1 := by
        simpa [List.count_cons, hcx] using h
      simp only [stringsSplit, hx, if_false]
      have hlen := stringsSplit_length t c
      cases h2 : stringsSplit t c with
      | nil => rw [h2] at hlen; simp at hlen
      | cons a r =>
        have ih2 := ih hc
        rw [h2] at ih2
        rw [List.dropWhile_cons, if_pos (by simpa using hx)]
        exact ih2

theorem parseHeadersLoop_spec (headers : List GoString) (m : HeaderMap) :
    ((parseHeadersLoop headers m).2 = none ↔ ∀ header ∈ headers, WellFormedHeader header) ∧
    ((parseHeadersLoop headers m).2 = none →
      ∀ k, (parseHeadersLoop headers m).1 k = (lastValue headers k).or (m k)) := by
  induction headers generalizing m with
  | nil => simp [parseHeadersLoop, lastValue]
  | cons header rest ih =>
    have hlen := stringsSplit_length header '='
    by_cases h2 : (stringsSplit header '=').length = 2
    · have hcount : header.count '=' = 1 := by omega
      have hk : elemAt (stringsSplit header '=') 0 = headerKey header :=
        stringsSplit_first header '='
      have hv : elemAt (stringsSplit header '=') 1 = headerValue header :=
        stringsSplit_second header '=' hcount
      by_cases hkey : headerKey header = []
      · simp [parseHeadersLoop, h2, hk, hkey, WellFormedHeader]
      · by_cases hval : headerValue header = []
        · simp [parseHeadersLoop, h2, hk, hv, hkey, hval, WellFormedHeader]
        · have hwf : WellFormedHeader header := ⟨hcount, hkey, hval⟩
          have hstep : parseHeadersLoop (header :: rest) m
              = parseHeadersLoop rest
                  (fun k => if k = headerKey header then some (headerValue header) else m k) := by
            simp [parseHeadersLoop, h2, hk, hv, hkey, hval]
          rw [hstep]
          obtain ⟨ih1, ih2⟩ :=
            ih (fun k => if k = headerKey header then some (headerValue header) else m k)
          refine ⟨?_, ?_⟩
          · rw [ih1]
            simp [hwf]
          · intro hnone k
            rw [ih2 hnone k]
            simp only [lastValue, List.reverse_cons, List.find?_append]
            cases hf : List.find? (fun header => decide (headerKey header = k)) rest.reverse with
            | some v => simp
            | none =>
              by_cases hkk : k = headerKey header
              · simp [hkk]
              · have hkk2 : ¬ headerKey header = k := fun e => hkk e.symm
                simp [hkk, hkk2]
    · have hcount : header.count '=' ≠ 1 := by omega
      simp [parseHeadersLoop, h2, WellFormedHeader, hcount]

/-- C10: `parseHeaders` returns a nil error exactly when every header has
exactly one `=` with text that is not empty on both sides of it; the map
returned then holds, for every key, the value of the last header with that key
(and nothing for a key no header has). -/
theorem parseHeaders_spec (headers : List GoString) :
    ((parseHeaders headers).2 = none ↔ ∀ header ∈ headers, WellFormedHeader header) ∧
    ((parseHeaders headers).2 = none →
      ∀ k, (parseHeaders headers).1 k = lastValue headers k) := by
  obtain ⟨h1, h2⟩ := parseHeadersLoop_spec headers (fun _ => none)
  refine ⟨h1, ?_⟩
  intro hnone k
  have := h2 hnone k
  simpa [parseHeaders] using this

/-- C10, at the headers `X-A=1`, `X-B=2`, `X-A=3`. -/
theorem parseHeaders_spec_witness :
    (parseHeaders ["X-A=1".toList, "X-B=2".toList, "X-A=3".toList]).2 = none ∧
    ∀ k, (parseHeaders ["X-A=1".toList, "X-B=2".toList, "X-A=3".toList]).1 k
      = lastValue ["X-A=1".toList, "X-B=2".toList, "X-A=3".toList] k :=
  ⟨(parseHeaders_spec ["X-A=1".toList, "X-B=2".toList, "X-A=3".toList]).1.mpr (by decide),
   (parseHeaders_spec ["X-A=1".toList, "X-B=2".toList, "X-A=3".toList]).2 (by decide)⟩

/-! ## Expansion: what happens to one entry -/

theorem startsWith_iff (p s : GoString) : startsWith p s = true ↔ ∃ t, s = p ++ t := by
  induction p generalizing s with
  | nil => simp [startsWith]
  | cons a p ih =>
    cases s with
    | nil => simp [startsWith]
    | cons b s =>
      simp only [startsWith, Bool.and_eq_true, beq_iff_eq, ih, List.cons_append,
        List.cons.injEq]
      constructor
      · rintro ⟨rfl, t, rfl⟩; exact ⟨t, rfl, rfl⟩
      · rintro ⟨t, rfl, rfl⟩; exact ⟨rfl, t, rfl⟩

theorem stringsIndex_ge (s p : GoString) : -1 ≤ stringsIndex s p := by
  induction s with
  | nil => simp only [stringsIndex]; split_ifs <;> omega
  | cons c t ih => simp only [stringsIndex]; split_ifs <;> omega

theorem stringsIndex_eq_zero (s p : GoString) :
    stringsIndex s p = 0 ↔ startsWith p s = true := by
  cases s with
  | nil => simp only [stringsIndex]; split_ifs with h <;> simp [h]
  | cons c t =>
    have := stringsIndex_ge t p
    simp only [stringsIndex]
    split_ifs with h h2
    · simp [h]
    · simp [h]
    · simp only [h]
      constructor
      · intro h3; omega
      · intro h3; exact absurd h3 (by simp)

theorem templateSlash_length_lt (rel : GoString)
    (h : stringsIndex rel templateSlash = 0) : 1 < rel.length := by
  obtain ⟨t, rfl⟩ := (startsWith_iff _ _).mp ((stringsIndex_eq_zero _ _).mp h)
  simp [templateSlash]

theorem materialize_spec {σ : Type} (os : OS σ) (z : File) (rel : GoString) (d : Bool)
    (s : RunState σ) :
    (∃ e s1, materialize os z rel d s = .brk s1 ∧ s1.world = s.world ∧
      s1.calls = s.calls ++ [Call.zipOpen z (some e)]) ∨
    (∃ e s1, materialize os z rel d s = .brk s1 ∧
      s1.calls = s.calls ++ [Call.zipOpen z none, Call.createPath z rel z.Mode (some e)]) ∨
    (∃ e s1, materialize os z rel d s = .ret s1 e ∧
      s1.calls = s.calls ++ [Call.zipOpen z none, Call.createPath z rel z.Mode none,
        Call.writeFile z rel z.Mode z.UncompressedSize64 (some e)]) ∨
    (∃ rc s1, z.Open = .ok rc ∧ materialize os z rel d s = .next s1 ∧
      (createPath os s.world rel z.Mode).2 = none ∧
      if (decide (rel.length > 1) && !d) = true then
        (writeFile os (createPath os s.world rel z.Mode).1 rc z.UncompressedSize64 rel
          z.Mode).2 = none ∧
        s1.world = (writeFile os (createPath os s.world rel z.Mode).1 rc
          z.UncompressedSize64 rel z.Mode).1 ∧
        s1.calls = s.calls ++ [Call.zipOpen z none, Call.createPath z rel z.Mode none,
          Call.writeFile z rel z.Mode z.UncompressedSize64 none]
      else
        s1.world = (createPath os s.world rel z.Mode).1 ∧
        s1.calls = s.calls ++ [Call.zipOpen z none, Call.createPath z rel z.Mode none]) := by
  unfold materialize
  cases hopen : z.Open with
  | error e => exact Or.inl ⟨e, _, rfl, rfl, rfl⟩
  | ok rc =>
    right
    simp only
    cases hc : (createPath os s.world rel z.Mode).2 with
    | some e => exact Or.inl ⟨e, _, rfl, rfl⟩
    | none =>
      right
      simp only
      by_cases hw : (decide (rel.length > 1) && !d) = true
      · simp only [hw, if_true]
        cases hf : (writeFile os (createPath os s.world rel z.Mode).1 rc z.UncompressedSize64
            rel z.Mode).2 with
        | some e => exact Or.inl ⟨e, _, rfl, by simp⟩
        | none => exact Or.inr ⟨rc, _, rfl, rfl, by simp [hf]⟩
      · simp only [hw]
        exact Or.inr ⟨rc, _, rfl, rfl, by simp⟩

theorem int64_of_lt (size : Nat) (h : size < 2 ^ 63) : int64 size = (size : Int) := by
  have h1 : size % 2 ^ 64 = size := Nat.mod_eq_of_lt (by omega)
  unfold int64
  rw [h1, if_pos h]

theorem writeFile_ok {σ : Type} (os : OS σ) (w : σ) (rc : List Nat) (size : Nat)
    (rel : GoString) (perms : Nat) (h : (writeFile os w rc size rel perms).2 = none) :
    (os.OpenFile w rel perms).2 = none ∧
    (os.CopyN (os.OpenFile w rel perms).1 rel rc (int64 size)).2 = none ∧
    (writeFile os w rc size rel perms).1
      = (os.CopyN (os.OpenFile w rel perms).1 rel rc (int64 size)).1 := by
  unfold writeFile at h ⊢
  cases ho : os.OpenFile w rel perms with
  | mk w1 e =>
    rw [ho] at h
    cases e with
    | some err => simp at h
    | none => exact ⟨rfl, h, rfl⟩

theorem expandEntry_next {σ : Type} (os : OS σ) (overwrite : Bool) (z : File)
    (s s1 : RunState σ) (h : expandEntry os overwrite z s = .next s1) :
    if stringsIndex (relativePathOf z) templateSlash = 0 ∧
        2 < (stringsSplit (relativePathOf z) '/').length ∧
        (canWriteLanguage os s.world (some s.availableLanguages) (languageOf z) overwrite).1
          = true
    then
      ∃ rc, z.Open = .ok rc ∧
        (createPath os s.world (relativePathOf z) z.Mode).2 = none ∧
        (if endsInSlash (relativePathOf z) = true then
          s1.world = (createPath os s.world (relativePathOf z) z.Mode).1
        else
          (writeFile os (createPath os s.world (relativePathOf z) z.Mode).1 rc
            z.UncompressedSize64 (relativePathOf z) z.Mode).2 = none ∧
          s1.world = (writeFile os (createPath os s.world (relativePathOf z) z.Mode).1 rc
            z.UncompressedSize64 (relativePathOf z) z.Mode).1) ∧
        s1.calls = s.calls ++ materializedCalls z
    else s1.calls = s.calls ∧ s1.world = s.world := by
  rw [expandEntry_eq, classify_result] at h
  unfold languageOf
  by_cases hc : stringsIndex (relativePathOf z) templateSlash = 0 ∧
      2 < (stringsSplit (relativePathOf z) '/').length ∧
      (canWriteLanguage os s.world (some s.availableLanguages)
        (elemAt (stringsSplit (relativePathOf z) '/') 1) overwrite).1 = true
  · rw [if_pos hc] at h ⊢
    simp only at h
    have hlen := templateSlash_length_lt _ hc.1
    rcases materialize_spec os z (relativePathOf z) (endsInSlash (relativePathOf z))
        (classify os overwrite (relativePathOf z) s).1 with
      ⟨e, s2, hm, _⟩ | ⟨e, s2, hm, _⟩ | ⟨e, s2, hm, _⟩ | ⟨rc, s2, hopen, hm, hcp, hrest⟩
    · rw [hm] at h; cases h
    · rw [hm] at h; cases h
    · rw [hm] at h; cases h
    · rw [hm] at h
      cases h
      rw [classify_world, classify_calls] at hrest
      rw [classify_world] at hcp
      refine ⟨rc, hopen, hcp, ?_⟩
      unfold materializedCalls
      cases hd : endsInSlash (relativePathOf z)
      · rw [hd] at hrest
        simp only [hlen, decide_True, Bool.not_false, Bool.and_self, if_true] at hrest
        exact ⟨by simpa using ⟨hrest.1, hrest.2.1⟩, by simpa using hrest.2.2⟩
      · rw [hd] at hrest
        simp only [Bool.not_true, Bool.and_false, Bool.false_eq_true, if_false] at hrest
        exact ⟨by simpa using hrest.1, by simpa using hrest.2⟩
  · rw [if_neg hc] at h ⊢
    simp only at h
    cases h
    exact ⟨classify_calls _ _ _ _, classify_world _ _ _ _⟩

theorem expandEntry_fail {σ : Type} (os : OS σ) (overwrite : Bool) (z : File)
    (s s1 : RunState σ)
    (h : expandEntry os overwrite z s = .brk s1 ∨ ∃ e, expandEntry os overwrite z s = .ret s1 e) :
    ∃ c ∈ s1.calls, c.err ≠ none := by
  rw [expandEntry_eq] at h
  cases hr : (classify os overwrite (relativePathOf z) s).2 with
  | none =>
    rw [hr] at h
    rcases h with h | ⟨e, h⟩ <;> cases h
  | some d =>
    rw [hr] at h
    simp only at h
    rcases materialize_spec os z (relativePathOf z) d
        (classify os overwrite (relativePathOf z) s).1 with
      ⟨e, s2, hm, _, hcalls⟩ | ⟨e, s2, hm, hcalls⟩ | ⟨e, s2, hm, hcalls⟩ | ⟨rc, s2, _, hm, _⟩
    · rw [hm] at h
      have hs : s2 = s1 := by
        rcases h with h | ⟨e2, h⟩
        · cases h; rfl
        · cases h
      subst hs
      exact ⟨Call.zipOpen z (some e), by rw [hcalls]; simp, by simp [Call.err]⟩
    · rw [hm] at h
      have hs : s2 = s1 := by
        rcases h with h | ⟨e2, h⟩
        · cases h; rfl
        · cases h
      subst hs
      exact ⟨Call.createPath z (relativePathOf z) z.Mode (some e),
        by rw [hcalls]; simp, by simp [Call.err]⟩
    · rw [hm] at h
      have hs : s2 = s1 := by
        rcases h with h | ⟨e2, h⟩
        · cases h
        · cases h; rfl
      subst hs
      exact ⟨Call.writeFile z (relativePathOf z) z.Mode z.UncompressedSize64 (some e),
        by rw [hcalls]; simp, by simp [Call.err]⟩
    · rw [hm] at h
      rcases h with h | ⟨e2, h⟩ <;> cases h

theorem materialize_calls {σ : Type} (os : OS σ) (z : File) (rel : GoString) (d : Bool)
    (s : RunState σ) :
    ∃ new, (materialize os z rel d s).state.calls = s.calls ++ new ∧
      ∀ c ∈ new, c.entry = z := by
  rcases materialize_spec os z rel d s with
    ⟨e, s2, hm, _, hcalls⟩ | ⟨e, s2, hm, hcalls⟩ | ⟨e, s2, hm, hcalls⟩ | ⟨rc, s2, _, hm, _, hrest⟩
  · exact ⟨_, by rw [hm]; exact hcalls, by simp [Call.entry]⟩
  · exact ⟨_, by rw [hm]; exact hcalls, by simp [Call.entry]⟩
  · exact ⟨_, by rw [hm]; exact hcalls, by simp [Call.entry]⟩
  · split_ifs at hrest
    · exact ⟨_, by rw [hm]; exact hrest.2.2, by simp [Call.entry]⟩
    · exact ⟨_, by rw [hm]; exact hrest.2, by simp [Call.entry]⟩

theorem expandEntry_calls {σ : Type} (os : OS σ) (overwrite : Bool) (z : File)
    (s : RunState σ) :
    ∃ new, (expandEntry os overwrite z s).state.calls = s.calls ++ new := by
  rw [expandEntry_eq]
  cases hr : (classify os overwrite (relativePathOf z) s).2 with
  | none => exact ⟨[], by simp [Flow.state, classify_calls]⟩
  | some d =>
    simp only
    obtain ⟨new, hnew, _⟩ := materialize_calls os z (relativePathOf z) d
      (classify os overwrite (relativePathOf z) s).1
    exact ⟨new, by rw [hnew, classify_calls]⟩

theorem expandLoop_calls {σ : Type} (os : OS σ) (overwrite : Bool) (files : List File)
    (s : RunState σ) :
    ∃ new, (expandLoop os overwrite files s).1.calls = s.calls ++ new := by
  induction files generalizing s with
  | nil => exact ⟨[], by simp [expandLoop]⟩
  | cons z zs ih =>
    obtain ⟨n1, h1⟩ := expandEntry_calls os overwrite z s
    simp only [expandLoop]
    cases h : expandEntry os overwrite z s with
    | next s1 =>
      rw [h] at h1
      obtain ⟨n2, h2⟩ := ih s1
      simp only [Flow.state] at h1
      exact ⟨n1 ++ n2, by simp only [h2, h1, List.append_assoc]⟩
    | brk s1 => rw [h] at h1; exact ⟨n1, h1⟩
    | ret s1 err => rw [h] at h1; exact ⟨n1, h1⟩

theorem expandLoop_reaches {σ : Type} (os : OS σ) (overwrite : Bool)
    (pre : List File) (z : File) (post : List File) (s : RunState σ)
    (hcalls : ∀ c ∈ (expandLoop os overwrite (pre ++ z :: post) s).1.calls, c.err = none) :
    ∃ s1, expandEntry os overwrite z (expandLoop os overwrite pre s).1 = .next s1 ∧
      expandLoop os overwrite (pre ++ z :: post) s = expandLoop os overwrite post s1 := by
  induction pre generalizing s with
  | nil =>
    simp only [List.nil_append, expandLoop] at hcalls ⊢
    cases h : expandEntry os overwrite z s with
    | next s1 => exact ⟨s1, rfl, rfl⟩
    | brk s1 =>
      rw [h] at hcalls
      obtain ⟨c, hc, hce⟩ := expandEntry_fail os overwrite z s s1 (Or.inl h)
      exact absurd (hcalls c hc) hce
    | ret s1 err =>
      rw [h] at hcalls
      obtain ⟨c, hc, hce⟩ := expandEntry_fail os overwrite z s s1 (Or.inr ⟨err, h⟩)
      exact absurd (hcalls c hc) hce
  | cons y pre ih =>
    simp only [List.cons_append, expandLoop] at hcalls ⊢
    cases h : expandEntry os overwrite y s with
    | next s1 =>
      rw [h] at hcalls
      exact ih s1 hcalls
    | brk s1 =>
      rw [h] at hcalls
      obtain ⟨c, hc, hce⟩ := expandEntry_fail os overwrite y s s1 (Or.inl h)
      exact absurd (hcalls c hc) hce
    | ret s1 err =>
      rw [h] at hcalls
      obtain ⟨c, hc, hce⟩ := expandEntry_fail os overwrite y s s1 (Or.inr ⟨err, h⟩)
      exact absurd (hcalls c hc) hce

theorem expandLoop_err {σ : Type} (os : OS σ) (overwrite : Bool) (files : List File)
    (s : RunState σ)
    (hcalls : ∀ c ∈ (expandLoop os overwrite files s).1.calls, c.err = none) :
    (expandLoop os overwrite files s).2 = none := by
  induction files generalizing s with
  | nil => rfl
  | cons y files ih =>
    simp only [expandLoop] at hcalls ⊢
    cases h : expandEntry os overwrite y s with
    | next s1 =>
      rw [h] at hcalls
      exact ih s1 hcalls
    | brk s1 => rfl
    | ret s1 err =>
      rw [h] at hcalls
      obtain ⟨c, hc, hce⟩ := expandEntry_fail os overwrite y s s1 (Or.inr ⟨err, h⟩)
      exact absurd (hcalls c hc) hce

theorem expandTemplatesFromZip_final {σ : Type} (os : OS σ) (w : σ) (archive : GoString)
    (overwrite : Bool) (files : List File) (hopen : os.OpenReader w archive = .ok files) :
    (expandTemplatesFromZip os w archive overwrite).final
        = (expandLoop os overwrite files (RunState.init w)).1 ∧
    (expandTemplatesFromZip os w archive overwrite).err
        = (expandLoop os overwrite files (RunState.init w)).2 := by
  unfold expandTemplatesFromZip
  rw [hopen]
  simp only
  split <;> rename_i heq <;> rw [heq] <;> exact ⟨rfl, rfl⟩

/-- C5 (claim as stated fails): in runs in which no call fails, the entry
`root/template/README.md` (relative path starts with `template/` and is not
`template/`, its language would be decided writable) causes no call at all,
and for the entry `root/template/go/huge.bin`, whose header declares `2^63`
bytes, the file is created but none of its content is written. -/
theorem entry_directly_under_template_skipped :
    (stringsIndex (relativePathOf readme) templateSlash = 0 ∧
      relativePathOf readme ≠ templateSlash ∧
      (canWriteLanguage (memOS (.ok [readme])) (emptyWork 18) (some Cache.empty)
        (languageOf readme) false).1 = true ∧
      (expandTemplatesFromZip (memOS (.ok [readme])) (emptyWork 18) masterZip false).err
        = none ∧
      (expandTemplatesFromZip (memOS (.ok [readme])) (emptyWork 18) masterZip
        false).final.calls = []) ∧
    ((expandTemplatesFromZip (memOS (.ok [goDir, hugeEntry])) (emptyWork 18) masterZip
        false).err = none ∧
      (∀ c ∈ (expandTemplatesFromZip (memOS (.ok [goDir, hugeEntry])) (emptyWork 18)
        masterZip false).final.calls, c.err = none) ∧
      hugeEntry.Open = .ok [1, 2] ∧
      nodeAt (expandTemplatesFromZip (memOS (.ok [goDir, hugeEntry])) (emptyWork 18)
        masterZip false).final.world
        (work ++ ["template".toList, "go".toList, "huge.bin".toList])
        = some (Node.file 420 [])) := by
  refine ⟨⟨?_, ?_, ?_, ?_, ?_⟩, ⟨?_, ?_, ?_, ?_⟩⟩ <;> decide

/-- C5 (amended): in a run in which no call made (`z.Open()`, `createPath`,
`writeFile`) returns an error, the function returns a nil error and every
entry `z` of the archive is passed at the end of the loop body or with
`continue`.  With `sz` the state in which `z` is reached: if the relative path
of `z` starts with `template/`, splits at `/` into more than two elements, its
language is decided writable, and `z` is a directory entry or declares fewer
than `2^63` bytes, then `z` is fully materialized (its directory chain is
created and, if it is not a directory entry, its content is written); if the
relative path does not start with `template/`, or is `template/`, or the
language is denied, then `z` is skipped entirely; and `z` is skipped entirely
only if its relative path does not start with `template/`, or has at most two
elements, or its language is denied.  What was logged for `z` stays in the
final log. -/
theorem expandTemplatesFromZip_materializes {σ : Type} (os : OS σ) (w : σ)
    (archive : GoString) (overwrite : Bool) (pre : List File) (z : File) (post : List File)
    (hopen : os.OpenReader w archive = .ok (pre ++ z :: post))
    (hcalls : ∀ c ∈ (expandTemplatesFromZip os w archive overwrite).final.calls,
      c.err = none) :
    (expandTemplatesFromZip os w archive overwrite).err = none ∧
    ∃ s1, expandEntry os overwrite z (expandLoop os overwrite pre (RunState.init w)).1
        = .next s1 ∧
      (∃ later, (expandTemplatesFromZip os w archive overwrite).final.calls
        = s1.calls ++ later) ∧
      ((stringsIndex (relativePathOf z) templateSlash = 0 ∧
          2 < (stringsSplit (relativePathOf z) '/').length ∧
          (canWriteLanguage os (expandLoop os overwrite pre (RunState.init w)).1.world
            (some (expandLoop os overwrite pre (RunState.init w)).1.availableLanguages)
            (languageOf z) overwrite).1 = true ∧
          (endsInSlash (relativePathOf z) = true ∨ z.UncompressedSize64 < 2 ^ 63)) →
        Materialized os z (expandLoop os overwrite pre (RunState.init w)).1 s1) ∧
      ((stringsIndex (relativePathOf z) templateSlash ≠ 0 ∨
          relativePathOf z = templateSlash ∨
          (stringsIndex (relativePathOf z) templateSlash = 0 ∧
            2 < (stringsSplit (relativePathOf z) '/').length ∧
            (canWriteLanguage os (expandLoop os overwrite pre (RunState.init w)).1.world
              (some (expandLoop os overwrite pre (RunState.init w)).1.availableLanguages)
              (languageOf z) overwrite).1 = false)) →
        Skipped (expandLoop os overwrite pre (RunState.init w)).1 s1) ∧
      (Skipped (expandLoop os overwrite pre (RunState.init w)).1 s1 →
        (stringsIndex (relativePathOf z) templateSlash ≠ 0 ∨
          (stringsSplit (relativePathOf z) '/').length ≤ 2 ∨
          (canWriteLanguage os (expandLoop os overwrite pre (RunState.init w)).1.world
            (some (expandLoop os overwrite pre (RunState.init w)).1.availableLanguages)
            (languageOf z) overwrite).1 = false)) := by
  obtain ⟨hfinal, herr⟩ := expandTemplatesFromZip_final os w archive overwrite _ hopen
  rw [hfinal] at hcalls
  refine ⟨?_, ?_⟩
  · rw [herr]
    exact expandLoop_err os overwrite _ _ hcalls
  · obtain ⟨s1, hs1, hrest⟩ :=
      expandLoop_reaches os overwrite pre z post (RunState.init w) hcalls
    have hnext := expandEntry_next os overwrite z _ s1 hs1
    refine ⟨s1, hs1, ?_, ?_, ?_, ?_⟩
    · rw [hfinal, hrest]
      exact expandLoop_calls os overwrite post s1
    · rintro ⟨h0, hlen, hcan, hsize⟩
      rw [if_pos ⟨h0, hlen, hcan⟩] at hnext
      obtain ⟨rc, hrc, hmk, hw, hlog⟩ := hnext
      refine ⟨rc, hrc, hmk, ?_, hlog⟩
      by_cases hd : endsInSlash (relativePathOf z) = true
      · rw [if_pos hd] at hw ⊢
        exact hw
      · rw [if_neg hd] at hw ⊢
        have hlt : z.UncompressedSize64 < 2 ^ 63 := by
          rcases hsize with h | h
          · exact absurd h hd
          · exact h
        obtain ⟨ho, hc, hweq⟩ := writeFile_ok os _ rc _ _ _ hw.1
        rw [int64_of_lt _ hlt] at hc hweq
        exact ⟨ho, hc, hw.2.trans hweq⟩
    · intro hskip
      have hneg : ¬ (stringsIndex (relativePathOf z) templateSlash = 0 ∧
          2 < (stringsSplit (relativePathOf z) '/').length ∧
          (canWriteLanguage os (expandLoop os overwrite pre (RunState.init w)).1.world
            (some (expandLoop os overwrite pre (RunState.init w)).1.availableLanguages)
            (languageOf z) overwrite).1 = true) := by
        rintro ⟨h0, hlen, hcan⟩
        rcases hskip with h | h | h
        · exact h h0
        · rw [h] at hlen
          revert hlen
          decide
        · rw [h.2.2] at hcan
          cases hcan
      rw [if_neg hneg] at hnext
      exact hnext
    · intro hskip
      by_contra hcon
      simp only [not_or, not_not, not_le, Bool.not_eq_false] at hcon
      rw [if_pos hcon] at hnext
      obtain ⟨rc, _, _, _, hlog⟩ := hnext
      rw [hskip.1] at hlog
      have hnil := List.self_eq_append_right.mp hlog
      simp [materializedCalls] at hnil

/-- C5 (amended), at the entry `root/template/go/handler.go` of the archive of
Scenario A with its directory entries: in an empty working directory it is
fully materialized, and the file then holds the three bytes of the entry;
with `./template/go` present it is skipped. -/
theorem expandTemplatesFromZip_materializes_witness :
    (∃ s1, expandEntry (memOS (.ok ([goDir] ++ goHandler :: [nodeDir, nodeHandler]))) false
        goHandler
        (expandLoop (memOS (.ok ([goDir] ++ goHandler :: [nodeDir, nodeHandler]))) false
          [goDir] (RunState.init (emptyWork 18))).1 = .next s1 ∧
      Materialized (memOS (.ok ([goDir] ++ goHandler :: [nodeDir, nodeHandler]))) goHandler
        (expandLoop (memOS (.ok ([goDir] ++ goHandler :: [nodeDir, nodeHandler]))) false
          [goDir] (RunState.init (emptyWork 18))).1 s1 ∧
      nodeAt s1.world (work ++ ["template".toList, "go".toList, "handler.go".toList])
        = some (Node.file 420 [112, 107, 103])) ∧
    (∃ s1, expandEntry (memOS (.ok ([goDir] ++ goHandler :: [nodeDir, nodeHandler]))) false
        goHandler
        (expandLoop (memOS (.ok ([goDir] ++ goHandler :: [nodeDir, nodeHandler]))) false
          [goDir] (RunState.init withGo)).1 = .next s1 ∧
      Skipped
        (expandLoop (memOS (.ok ([goDir] ++ goHandler :: [nodeDir, nodeHandler]))) false
          [goDir] (RunState.init withGo)).1 s1 ∧
      (stringsIndex (relativePathOf goHandler) templateSlash ≠ 0 ∨
        (stringsSplit (relativePathOf goHandler) '/').length ≤ 2 ∨
        (canWriteLanguage (memOS (.ok ([goDir] ++ goHandler :: [nodeDir, nodeHandler])))
          (expandLoop (memOS (.ok ([goDir] ++ goHandler :: [nodeDir, nodeHandler]))) false
            [goDir] (RunState.init withGo)).1.world
          (some (expandLoop (memOS (.ok ([goDir] ++ goHandler :: [nodeDir, nodeHandler])))
            false [goDir] (RunState.init withGo)).1.availableLanguages)
          (languageOf goHandler) false).1 = false)) := by
  obtain ⟨_, s1, h1, _, hm, _, _⟩ := expandTemplatesFromZip_materializes
    (memOS (.ok ([goDir] ++ goHandler :: [nodeDir, nodeHandler])))
    (emptyWork 18) masterZip false [goDir] goHandler [nodeDir, nodeHandler] rfl (by decide)
  obtain ⟨_, s2, h2, _, _, hs, honly⟩ := expandTemplatesFromZip_materializes
    (memOS (.ok ([goDir] ++ goHandler :: [nodeDir, nodeHandler])))
    withGo masterZip false [goDir] goHandler [nodeDir, nodeHandler] rfl (by decide)
  have hmat := hm (by decide)
  refine ⟨⟨s1, h1, hmat, ?_⟩, ⟨s2, h2, hs (by decide), honly (hs (by decide))⟩⟩
  obtain ⟨rc, hrc, _, hw, _⟩ := hmat
  have hrc2 : rc = [112, 107, 103] := by
    have : Except.ok [112, 107, 103] = (Except.ok rc : Except Error (List Nat)) := hrc
    cases this
    rfl
  subst hrc2
  rw [if_neg (by decide)] at hw
  rw [hw.2.2]
  decide

/-! ## The policy cache during a run -/

theorem canWriteLanguage_hit {σ : Type} (os : OS σ) (w : σ) (m : Cache)
    (language : GoString) (overwrite v : Bool)
    (hne : language ≠ []) (hm : m language = some v) :
    canWriteLanguage os w (some m) language overwrite = (v, some m) := by
  have hlen : language.length > 0 := List.length_pos.mpr hne
  simp [canWriteLanguage, hlen, hm]

theorem canWriteLanguage_cache_other {σ : Type} (os : OS σ) (w : σ) (m : Cache)
    (language k : GoString) (overwrite : Bool) (hk : k ≠ language) :
    ((canWriteLanguage os w (some m) language overwrite).2.getD m) k = m k := by
  unfold canWriteLanguage
  simp only
  split_ifs with hlen
  · cases hm : m language with
    | some v => simp
    | none => simp [Cache.set, hk]
  · simp

theorem canWriteLanguage_cache_empty_name {σ : Type} (os : OS σ) (w : σ) (m : Cache)
    (language : GoString) (overwrite : Bool) :
    ((canWriteLanguage os w (some m) language overwrite).2.getD m) [] = m [] := by
  by_cases h : language = []
  · subst h
    simp [canWriteLanguage]
  · exact canWriteLanguage_cache_other os w m language [] overwrite (fun e => h e.symm)

theorem materialize_cache {σ : Type} (os : OS σ) (z : File) (rel : GoString) (d : Bool)
    (s : RunState σ) :
    (materialize os z rel d s).state.availableLanguages = s.availableLanguages := by
  unfold materialize
  cases z.Open with
  | error e => rfl
  | ok rc =>
    simp only
    split
    · rfl
    · split
      · split <;> rfl
      · rfl

theorem expandEntry_cache_empty_name {σ : Type} (os : OS σ) (overwrite : Bool) (z : File)
    (s : RunState σ) :
    (expandEntry os overwrite z s).state.availableLanguages [] = s.availableLanguages [] := by
  have hc : (classify os overwrite (relativePathOf z) s).1.availableLanguages []
      = s.availableLanguages [] := by
    rw [classify_cache]
    split_ifs
    · exact canWriteLanguage_cache_empty_name os s.world s.availableLanguages _ overwrite
    · rfl
  rw [expandEntry_eq]
  cases (classify os overwrite (relativePathOf z) s).2 with
  | none => exact hc
  | some d =>
    simp only
    rw [materialize_cache]
    exact hc

theorem expandLoop_cache_empty_name {σ : Type} (os : OS σ) (overwrite : Bool)
    (files : List File) (s : RunState σ) :
    (expandLoop os overwrite files s).1.availableLanguages [] = s.availableLanguages [] := by
  induction files generalizing s with
  | nil => rfl
  | cons z zs ih =>
    have h1 := expandEntry_cache_empty_name os overwrite z s
    simp only [expandLoop]
    cases he : expandEntry os overwrite z s with
    | next s1 => rw [he] at h1; rw [ih s1]; exact h1
    | brk s1 => rw [he] at h1; exact h1
    | ret s1 err => rw [he] at h1; exact h1

/-- C3: for every cache a run can hold (the map made at loop entry, after the
loop has processed any entries of any archive in any world), every language
and every decision `v` the cache holds for it, `canWriteLanguage` returns `v`,
whatever the overwrite flag and the world it is called in, and the cache after
the call is the same map. -/
theorem canWriteLanguage_cached {σ : Type} (os : OS σ) (w : σ) (overwrite : Bool)
    (files : List File) (language : GoString) (v : Bool) (w1 : σ) (overwrite1 : Bool)
    (hm : (expandLoop os overwrite files (RunState.init w)).1.availableLanguages language
      = some v) :
    canWriteLanguage os w1
        (some (expandLoop os overwrite files (RunState.init w)).1.availableLanguages)
        language overwrite1
      = (v, some (expandLoop os overwrite files (RunState.init w)).1.availableLanguages) := by
  have hnil := expandLoop_cache_empty_name os overwrite files (RunState.init w)
  have hne : language ≠ [] := by
    intro e
    rw [e, hnil] at hm
    simp [RunState.init, Cache.empty] at hm
  exact canWriteLanguage_hit os w1 _ language overwrite1 v hne hm

/-- C3, at the cache after the archive of Scenario A was expanded in an empty
working directory: `go` is cached as writable, and the call made with
`./template/go` present and `overwrite = false` still returns `true`. -/
theorem canWriteLanguage_cached_witness :
    canWriteLanguage (memOS (.ok [])) withGo
        (some (expandLoop (memOS (.ok [])) false [goDir, goHandler, nodeDir, nodeHandler]
          (RunState.init (emptyWork 18))).1.availableLanguages)
        "go".toList false
      = (true,
          some (expandLoop (memOS (.ok [])) false [goDir, goHandler, nodeDir, nodeHandler]
            (RunState.init (emptyWork 18))).1.availableLanguages) :=
  canWriteLanguage_cached (memOS (.ok [])) (emptyWork 18) false
    [goDir, goHandler, nodeDir, nodeHandler] "go".toList true withGo false (by decide)

/-! ## Expansion: a language whose directory exists, `overwrite = false` -/

theorem canWriteLanguage_denied {σ : Type} (os : OS σ) (w : σ) (m : Cache)
    (L : GoString) (hstat : os.Stat w (templateDirectory ++ L) = none)
    (hm : m L ≠ some true) :
    (canWriteLanguage os w (some m) L false).1 = false ∧
    ((canWriteLanguage os w (some m) L false).2.getD m) L ≠ some true := by
  unfold canWriteLanguage
  simp only
  split_ifs with hlen
  · cases hmL : m L with
    | some v =>
      cases v with
      | true => exact absurd hmL hm
      | false => simp [hmL]
    | none => simp [checkLanguage, hstat, Cache.set]
  · exact ⟨rfl, by simpa using hm⟩

theorem writeFile_stat {σ : Type} (os : OS σ) (name : GoString) (hst : StatStable os name)
    (w : σ) (rc : List Nat) (size : Nat) (rel : GoString) (perms : Nat)
    (h : os.Stat w name = none) :
    os.Stat (writeFile os w rc size rel perms).1 name = none := by
  unfold writeFile
  have h1 := hst.2.1 w rel perms h
  cases ho : os.OpenFile w rel perms with
  | mk w1 e =>
    rw [ho] at h1
    cases e with
    | some err => exact h1
    | none => exact hst.2.2 w1 rel rc (int64 size) h1

theorem materialize_stat {σ : Type} (os : OS σ) (name : GoString) (hst : StatStable os name)
    (z : File) (rel : GoString) (d : Bool) (s : RunState σ)
    (h : os.Stat s.world name = none) :
    os.Stat (materialize os z rel d s).state.world name = none := by
  have hc : os.Stat (createPath os s.world rel z.Mode).1 name = none :=
    hst.1 s.world (filepathDir rel) z.Mode h
  unfold materialize
  cases z.Open with
  | error e => exact h
  | ok rc =>
    simp only
    split
    · exact hc
    · split
      · have hw := writeFile_stat os name hst (createPath os s.world rel z.Mode).1 rc
          z.UncompressedSize64 rel z.Mode hc
        split <;> exact hw
      · exact hc

theorem materialize_calls_entry {σ : Type} (os : OS σ) (z : File) (rel : GoString)
    (d : Bool) (s : RunState σ) :
    ∀ c ∈ (materialize os z rel d s).state.calls, c ∈ s.calls ∨ c.entry = z := by
  intro c hc
  obtain ⟨new, hnew, hentry⟩ := materialize_calls os z rel d s
  rw [hnew, List.mem_append] at hc
  rcases hc with hc | hc
  · exact Or.inl hc
  · exact Or.inr (hentry c hc)

theorem expandEntry_denied {σ : Type} (os : OS σ) (L : GoString)
    (hst : StatStable os (templateDirectory ++ L)) (z : File) (s : RunState σ)
    (h : Denied os L s) : Denied os L (expandEntry os false z s).state := by
  obtain ⟨hstat, hcache, hcalls⟩ := h
  have hcl_cache := classify_cache os false (relativePathOf z) s
  have hcl_res := classify_result os false (relativePathOf z) s
  have hcl_world := classify_world os false (relativePathOf z) s
  have hcl_calls := classify_calls os false (relativePathOf z) s
  -- the cache after classification still does not say `true` for `L`
  have hcache1 : (classify os false (relativePathOf z) s).1.availableLanguages L ≠ some true := by
    rw [hcl_cache]
    split_ifs with hc
    · by_cases hl : L = elemAt (stringsSplit (relativePathOf z) '/') 1
      · rw [← hl]
        rw [← hl] at hcl_res
        exact (canWriteLanguage_denied os s.world s.availableLanguages L hstat hcache).2
      · rw [canWriteLanguage_cache_other os s.world s.availableLanguages _ L false hl]
        exact hcache
    · exact hcache
  rw [expandEntry_eq]
  cases hr : (classify os false (relativePathOf z) s).2 with
  | none =>
    refine ⟨?_, hcache1, ?_⟩
    · simp only [Flow.state]; rw [hcl_world]; exact hstat
    · simp only [Flow.state]; rw [hcl_calls]; exact hcalls
  | some d =>
    simp only
    -- the entry survived, so its language is not `L`
    have hlang : languageOf z ≠ L := by
      intro hl
      rw [hr] at hcl_res
      split_ifs at hcl_res with hc
      · unfold languageOf at hl
        rw [hl] at hc
        have := (canWriteLanguage_denied os s.world s.availableLanguages L hstat hcache).1
        rw [this] at hc
        exact absurd hc.2.2 (by simp)
    refine ⟨?_, ?_, ?_⟩
    · apply materialize_stat os _ hst
      rw [hcl_world]; exact hstat
    · rw [materialize_cache]; exact hcache1
    · intro c hc
      rcases materialize_calls_entry os z _ d _ c hc with hc | hc
      · rw [hcl_calls] at hc; exact hcalls c hc
      · rw [hc]; exact hlang

theorem expandLoop_denied {σ : Type} (os : OS σ) (L : GoString)
    (hst : StatStable os (templateDirectory ++ L)) (files : List File) (s : RunState σ)
    (h : Denied os L s) : Denied os L (expandLoop os false files s).1 := by
  induction files generalizing s with
  | nil => exact h
  | cons z zs ih =>
    have h1 := expandEntry_denied os L hst z s h
    simp only [expandLoop]
    cases he : expandEntry os false z s with
    | next s1 => rw [he] at h1; exact ih s1 h1
    | brk s1 => rw [he] at h1; exact h1
    | ret s1 err => rw [he] at h1; exact h1

/-! ## The in-memory file system only grows -/

theorem nodeAt_put_ne (fs : MemFS) (q p : Path) (n : Node) (h : q ≠ p) :
    nodeAt (fs.put q n) p = nodeAt fs p := by
  simp [nodeAt, MemFS.put, lookupNode, h]

theorem nodeAt_put_self (fs : MemFS) (q : Path) (n : Node) (h : q ≠ []) :
    nodeAt (fs.put q n) q = some n := by
  simp [nodeAt, MemFS.put, lookupNode, h]

theorem nodeAt_root (fs : MemFS) : nodeAt fs [] = some (Node.dir 365) := by
  simp [nodeAt]

theorem extends_refl (fs : MemFS) : Extends fs fs :=
  ⟨rfl, rfl, rfl, fun _ => ⟨fun _ h => h, fun _ c h => ⟨c, h⟩⟩⟩

theorem extends_trans {a b c : MemFS} (h1 : Extends a b) (h2 : Extends b c) : Extends a c := by
  obtain ⟨c1, u1, s1, n1⟩ := h1
  obtain ⟨c2, u2, s2, n2⟩ := h2
  refine ⟨c2.trans c1, u2.trans u1, s2.trans s1, fun p => ⟨?_, ?_⟩⟩
  · intro m h
    exact (n2 p).1 m ((n1 p).1 m h)
  · intro m c h
    obtain ⟨c1, hc1⟩ := (n1 p).2 m c h
    exact (n2 p).2 m c1 hc1

theorem extends_put_new (fs : MemFS) (q : Path) (n : Node) (h : nodeAt fs q = none) :
    Extends fs (fs.put q n) := by
  refine ⟨rfl, rfl, rfl, fun p => ?_⟩
  by_cases hq : q = p
  · subst hq
    constructor
    · intro m hm; rw [h] at hm; cases hm
    · intro m c hm; rw [h] at hm; cases hm
  · rw [nodeAt_put_ne fs q p n hq]
    exact ⟨fun _ hm => hm, fun _ c hm => ⟨c, hm⟩⟩

theorem extends_put_file (fs : MemFS) (q : Path) (m : Nat) (c c1 : List Nat)
    (h : nodeAt fs q = some (Node.file m c)) :
    Extends fs (fs.put q (Node.file m c1)) := by
  have hq0 : q ≠ [] := by
    intro e
    rw [e, nodeAt_root] at h
    cases h
  refine ⟨rfl, rfl, rfl, fun p => ?_⟩
  by_cases hq : q = p
  · subst hq
    rw [nodeAt_put_self fs q _ hq0]
    constructor
    · intro m0 hm; rw [h] at hm; cases hm
    · intro m0 c0 hm
      rw [h] at hm
      cases hm
      exact ⟨c1, rfl⟩
  · rw [nodeAt_put_ne fs q p _ hq]
    exact ⟨fun _ hm => hm, fun _ c hm => ⟨c, hm⟩⟩

theorem mkdirWalk_extends (perm : Nat) (segs : List GoString) (cur : Path) (fs : MemFS) :
    Extends fs (mkdirWalk perm segs cur fs).1 := by
  induction segs generalizing cur fs with
  | nil => exact extends_refl fs
  | cons seg rest ih =>
    simp only [mkdirWalk]
    by_cases h1 : seg = []
    · rw [if_pos h1]
      exact ih cur fs
    · rw [if_neg h1]
      cases hn : nodeAt fs cur with
      | none => exact extends_refl fs
      | some nd =>
        cases nd with
        | file m0 c0 => exact extends_refl fs
        | dir m =>
          simp only
          by_cases h2 : (!maySearch fs m) = true
          · rw [if_pos h2]
            exact extends_refl fs
          · rw [if_neg h2]
            by_cases h3 : seg = ['.']
            · rw [if_pos h3]
              exact ih cur fs
            · rw [if_neg h3]
              by_cases h4 : seg = ['.', '.']
              · rw [if_pos h4]
                exact ih _ fs
              · rw [if_neg h4]
                cases hl : nodeAt fs (cur ++ [seg]) with
                | none =>
                  simp only
                  by_cases h5 : (!mayWrite fs m) = true
                  · rw [if_pos h5]
                    exact extends_refl fs
                  · rw [if_neg h5]
                    exact extends_trans (extends_put_new fs _ _ hl) (ih _ _)
                | some n2 =>
                  cases n2 with
                  | dir m0 => exact ih _ fs
                  | file m0 c0 => exact extends_refl fs

theorem memMkdirAll_extends (fs : MemFS) (name : GoString) (perm : Nat) :
    Extends fs (memMkdirAll fs name perm).1 := by
  unfold memMkdirAll
  split_ifs
  · exact extends_refl fs
  · exact mkdirWalk_extends perm _ _ fs

theorem memOpenFile_extends (fs : MemFS) (name : GoString) (perm : Nat) :
    Extends fs (memOpenFile fs name perm).1 := by
  unfold memOpenFile
  cases resolve fs name with
  | none => exact extends_refl fs
  | some p =>
    simp only
    split_ifs with hp
    · exact extends_refl fs
    · cases hl : nodeAt fs p with
      | none =>
        simp only
        cases hpar : nodeAt fs p.dropLast with
        | none => exact extends_refl fs
        | some nd =>
          cases nd with
          | file m0 c0 => exact extends_refl fs
          | dir pm =>
            simp only
            split_ifs
            · exact extends_put_new fs p _ hl
            · exact extends_refl fs
      | some n =>
        cases n with
        | dir m0 => exact extends_refl fs
        | file m0 c0 =>
          simp only
          split_ifs
          · exact extends_put_file fs p m0 c0 [] hl
          · exact extends_refl fs

theorem memCopyN_extends (fs : MemFS) (name : GoString) (rc : List Nat) (n : Int) :
    Extends fs (memCopyN fs name rc n).1 := by
  unfold memCopyN
  cases resolve fs name with
  | none => exact extends_refl fs
  | some p =>
    simp only
    cases hl : nodeAt fs p with
    | none => exact extends_refl fs
    | some nd =>
      cases nd with
      | dir m0 => exact extends_refl fs
      | file m0 c0 => exact extends_put_file fs p m0 c0 _ hl

theorem walk_mono {fs fs1 : MemFS} (h : Extends fs fs1) (segs : List GoString) (cur q : Path)
    (hw : walk fs segs cur = some q) : walk fs1 segs cur = some q := by
  induction segs generalizing cur with
  | nil => exact hw
  | cons seg rest ih =>
    simp only [walk] at hw ⊢
    by_cases h1 : seg = []
    · rw [if_pos h1] at hw ⊢
      exact ih cur hw
    · rw [if_neg h1] at hw ⊢
      cases hn : nodeAt fs cur with
      | none => rw [hn] at hw; cases hw
      | some nd =>
        cases nd with
        | file m0 c0 => rw [hn] at hw; cases hw
        | dir m =>
          rw [hn] at hw
          rw [(h.2.2.2 cur).1 m hn]
          simp only at hw ⊢
          have hs : maySearch fs1 m = maySearch fs m := by
            simp [maySearch, h.2.2.1]
          rw [hs]
          split_ifs at hw ⊢ with h2 h3 h4
          · exact ih cur hw
          · exact ih _ hw
          · exact ih _ hw

theorem memStat_mono {fs fs1 : MemFS} (h : Extends fs fs1) (name : GoString)
    (hs : memStat fs name = none) : memStat fs1 name = none := by
  unfold memStat resolve at hs ⊢
  have hstart : startOf fs1 name = startOf fs name := by
    simp [startOf, h.1]
  by_cases h1 : name = []
  · rw [if_pos h1] at hs
    cases hs
  · rw [if_neg h1] at hs ⊢
    rw [hstart]
    cases hw : walk fs (stringsSplit name '/') (startOf fs name) with
    | none => rw [hw] at hs; cases hs
    | some q =>
      rw [hw] at hs
      rw [walk_mono h _ _ q hw]
      simp only at hs ⊢
      cases hn : nodeAt fs q with
      | none => rw [hn] at hs; cases hs
      | some nd =>
        cases nd with
        | dir m => rw [(h.2.2.2 q).1 m hn]
        | file m c =>
          obtain ⟨c1, hc1⟩ := (h.2.2.2 q).2 m c hn
          rw [hn] at hs
          rw [hc1]
          exact hs

theorem memOS_statStable (a : Except Error (List File)) (name : GoString) :
    StatStable (memOS a) name :=
  ⟨fun w p m h => memStat_mono (memMkdirAll_extends w p m) name h,
   fun w p m h => memStat_mono (memOpenFile_extends w p m) name h,
   fun w p rc n h => memStat_mono (memCopyN_extends w p rc n) name h⟩

/-! ## Paths without `..` -/

theorem stringsSplit_append (a t : GoString) (c : Char) (h : c ∉ a) :
    stringsSplit (a ++ c :: t) c = a :: stringsSplit t c := by
  induction a with
  | nil => simp [stringsSplit]
  | cons x a ih =>
    have hx : x ≠ c := fun e => h (by simp [e])
    have ha : c ∉ a := fun e => h (List.mem_cons_of_mem _ e)
    simp [stringsSplit, hx, ih ha]

theorem stringsSplit_no_sep (s : GoString) (c : Char) :
    ∀ seg ∈ stringsSplit s c, c ∉ seg := by
  induction s with
  | nil => simp [stringsSplit]
  | cons x t ih =>
    by_cases hx : x = c
    · subst hx
      intro seg hseg
      simp only [stringsSplit, if_true, List.mem_cons] at hseg
      rcases hseg with rfl | hseg
      · simp
      · exact ih seg hseg
    · intro seg hseg
      simp only [stringsSplit, hx, if_false] at hseg
      cases h : stringsSplit t c with
      | nil =>
        rw [h] at hseg
        simp only [List.mem_singleton] at hseg
        subst hseg
        simpa using fun e => hx e.symm
      | cons a r =>
        rw [h] at hseg ih
        simp only [List.mem_cons] at hseg
        rcases hseg with rfl | hseg
        · have := ih a (by simp)
          simp only [List.mem_cons, not_or]
          exact ⟨fun e => hx e.symm, this⟩
        · exact ih seg (by simp [hseg])

theorem stringsSplit_intercalate (l : List GoString) (c : Char) (hne : l ≠ [])
    (h : ∀ seg ∈ l, c ∉ seg) : stringsSplit (List.intercalate [c] l) c = l := by
  induction l with
  | nil => exact absurd rfl hne
  | cons a l ih =>
    cases l with
    | nil =>
      simp only [List.intercalate, List.intersperse_singleton, List.flatten_cons, List.flatten_nil,
        List.append_nil]
      exact stringsSplit_of_not_mem a c (h a (by simp))
    | cons b l =>
      have e : List.intercalate [c] (a :: b :: l) = a ++ c :: List.intercalate [c] (b :: l) := by
        simp [List.intercalate, List.intersperse]
      rw [e, stringsSplit_append a _ c (h a (by simp)),
        ih (by simp) (fun seg hseg => h seg (List.mem_cons_of_mem _ hseg))]

theorem walk_filter (fs : MemFS) (segs : List GoString) (cur q : Path)
    (hdd : ['.', '.'] ∉ segs) (hw : walk fs segs cur = some q) :
    q = cur ++ segs.filter isNamed := by
  induction segs generalizing cur with
  | nil => simp only [walk, Option.some.injEq] at hw; simp [hw]
  | cons seg rest ih =>
    have hseg : seg ≠ ['.', '.'] := fun e => hdd (by simp [e])
    have hrest : ['.', '.'] ∉ rest := fun e => hdd (List.mem_cons_of_mem _ e)
    simp only [walk] at hw
    by_cases h1 : seg = []
    · rw [if_pos h1] at hw
      rw [ih cur hrest hw]
      simp [List.filter_cons, isNamed, h1]
    · rw [if_neg h1] at hw
      cases hn : nodeAt fs cur with
      | none => rw [hn] at hw; cases hw
      | some nd =>
        cases nd with
        | file m0 c0 => rw [hn] at hw; cases hw
        | dir m =>
          rw [hn] at hw
          simp only at hw
          by_cases h2 : (!maySearch fs m) = true
          · rw [if_pos h2] at hw; cases hw
          · rw [if_neg h2] at hw
            by_cases h3 : seg = ['.']
            · rw [if_pos h3] at hw
              rw [ih cur hrest hw]
              simp [List.filter_cons, isNamed, h3]
            · rw [if_neg h3, if_neg hseg] at hw
              rw [ih _ hrest hw]
              simp [List.filter_cons, isNamed, h1, h3]

theorem mkdirWalk_frame (perm : Nat) (segs : List GoString) (cur : Path) (fs : MemFS)
    (hdd : ['.', '.'] ∉ segs) (p : Path) (hp : ¬ p <+: cur ++ segs.filter isNamed) :
    nodeAt (mkdirWalk perm segs cur fs).1 p = nodeAt fs p := by
  induction segs generalizing cur fs with
  | nil => rfl
  | cons seg rest ih =>
    have hseg : seg ≠ ['.', '.'] := fun e => hdd (by simp [e])
    have hrest : ['.', '.'] ∉ rest := fun e => hdd (List.mem_cons_of_mem _ e)
    simp only [mkdirWalk]
    by_cases h1 : seg = []
    · rw [if_pos h1]
      apply ih cur fs hrest
      simpa [List.filter_cons, isNamed, h1] using hp
    · rw [if_neg h1]
      cases hn : nodeAt fs cur with
      | none => rfl
      | some nd =>
        cases nd with
        | file m0 c0 => rfl
        | dir m =>
          simp only
          by_cases h2 : (!maySearch fs m) = true
          · rw [if_pos h2]
          · rw [if_neg h2]
            by_cases h3 : seg = ['.']
            · rw [if_pos h3]
              apply ih cur fs hrest
              simpa [List.filter_cons, isNamed, h3] using hp
            · rw [if_neg h3, if_neg hseg]
              have hnm : isNamed seg = true := by
                simp only [isNamed, decide_eq_true_eq]
                exact ⟨h1, h3⟩
              have hp2 : ¬ p <+: (cur ++ [seg]) ++ rest.filter isNamed := by
                simpa [List.filter_cons, hnm] using hp
              have hne : cur ++ [seg] ≠ p := by
                intro e
                apply hp2
                rw [← e]
                exact List.prefix_append _ _
              cases hl : nodeAt fs (cur ++ [seg]) with
              | none =>
                simp only
                by_cases h5 : (!mayWrite fs m) = true
                · rw [if_pos h5]
                · rw [if_neg h5, ih _ _ hrest hp2, nodeAt_put_ne fs _ _ _ hne]
              | some n2 =>
                cases n2 with
                | dir m0 => exact ih _ fs hrest hp2
                | file m0 c0 => rfl

theorem foldl_cleanStep (rooted : Bool) (segs acc : List GoString)
    (hdd : ['.', '.'] ∉ segs) :
    segs.foldl (cleanStep rooted) acc = (segs.filter isNamed).reverse ++ acc := by
  induction segs generalizing acc with
  | nil => rfl
  | cons seg rest ih =>
    have hseg : seg ≠ ['.', '.'] := fun e => hdd (by simp [e])
    have hrest : ['.', '.'] ∉ rest := fun e => hdd (List.mem_cons_of_mem _ e)
    simp only [List.foldl_cons]
    rw [ih _ hrest]
    by_cases h1 : seg = [] ∨ seg = ['.']
    · have hn : isNamed seg = false := by
        simp only [isNamed, decide_eq_false_iff_not]
        rcases h1 with h1 | h1 <;> simp [h1]
      simp [cleanStep, h1, List.filter_cons, hn]
    · have hn : isNamed seg = true := by
        simp only [isNamed, decide_eq_true_eq]
        exact ⟨fun e => h1 (Or.inl e), fun e => h1 (Or.inr e)⟩
      simp [cleanStep, h1, hseg, List.filter_cons, hn]

theorem filter_isNamed_idem (l : List GoString) :
    (l.filter isNamed).filter isNamed = l.filter isNamed := by
  simp [List.filter_filter]

theorem startsWith_slash_intercalate (a : GoString) (rest : List GoString)
    (hne : a ≠ []) (hns : '/' ∉ a) :
    startsWith ['/'] (List.intercalate ['/'] (a :: rest)) = false := by
  cases a with
  | nil => exact absurd rfl hne
  | cons c a1 =>
    have hc : ('/' == c) = false := by
      simp only [beq_eq_false_iff_ne, ne_eq]
      intro e
      exact hns (by rw [e]; exact List.mem_cons_self _ _)
    cases rest with
    | nil => simp [List.intercalate, startsWith, hc]
    | cons b l => simp [List.intercalate, List.intersperse, startsWith, hc]

theorem mkdirWalk_dot (perm : Nat) (cur : Path) (fs : MemFS) :
    (mkdirWalk perm [['.']] cur fs).1 = fs := by
  simp only [mkdirWalk]
  rw [if_neg (by decide)]
  cases nodeAt fs cur with
  | none => rfl
  | some nd =>
    cases nd with
    | file m0 c0 => rfl
    | dir m =>
      simp only
      by_cases h2 : (!maySearch fs m) = true
      · rw [if_pos h2]
      · rw [if_neg h2]
        simp

theorem memMkdirAll_frame (fs : MemFS) (rel : GoString) (perm : Nat)
    (hnr : startsWith ['/'] rel = false)
    (hdd : ['.', '.'] ∉ stringsSplit rel '/') (p : Path) (hp : ¬ p <+: fullPath fs rel) :
    nodeAt (memMkdirAll fs (filepathDir rel) perm).1 p = nodeAt fs p := by
  have hdrop : ['.', '.'] ∉ (stringsSplit rel '/').dropLast :=
    fun e => hdd (List.dropLast_subset _ e)
  have hkept : ((stringsSplit rel '/').dropLast.foldl (cleanStep false) []).reverse
      = (stringsSplit rel '/').dropLast.filter isNamed := by
    rw [foldl_cleanStep _ _ _ hdrop]
    simp
  have hpre : fs.cwd ++ (stringsSplit rel '/').dropLast.filter isNamed <+: fullPath fs rel :=
    (List.prefix_append_right_inj _).mpr (List.IsPrefix.filter _ (List.dropLast_prefix _))
  have hp2 : ¬ p <+: fs.cwd ++ (stringsSplit rel '/').dropLast.filter isNamed :=
    fun e => hp (e.trans hpre)
  unfold filepathDir
  simp only [hnr, hkept, Bool.false_eq_true, if_false]
  by_cases hk : (stringsSplit rel '/').dropLast.filter isNamed = []
  · rw [if_pos hk]
    unfold memMkdirAll
    rw [if_neg (by decide)]
    have hs : stringsSplit ['.'] '/' = [['.']] := by decide
    rw [hs, mkdirWalk_dot]
  · rw [if_neg hk]
    unfold memMkdirAll
    split_ifs with hempty
    · rfl
    · have hnosep : ∀ seg ∈ (stringsSplit rel '/').dropLast.filter isNamed, '/' ∉ seg := by
        intro seg hseg
        exact stringsSplit_no_sep rel '/' seg
          (List.dropLast_subset _ (List.mem_of_mem_filter hseg))
      rw [stringsSplit_intercalate _ _ hk hnosep]
      have hstart : startOf fs
          (List.intercalate ['/'] ((stringsSplit rel '/').dropLast.filter isNamed)) = fs.cwd := by
        cases hl : (stringsSplit rel '/').dropLast.filter isNamed with
        | nil => exact absurd hl hk
        | cons a rest =>
          have ha : a ∈ (stringsSplit rel '/').dropLast.filter isNamed := by
            rw [hl]; simp
          have hnamed : isNamed a = true := (List.mem_filter.mp ha).2
          have hane : a ≠ [] := by
            simp only [isNamed, decide_eq_true_eq] at hnamed
            exact hnamed.1
          simp [startOf, startsWith_slash_intercalate a rest hane (hnosep a ha)]
      rw [hstart]
      apply mkdirWalk_frame
      · intro e
        exact hdrop (List.mem_of_mem_filter e)
      · rw [filter_isNamed_idem]
        exact hp2

theorem resolve_fullPath (fs : MemFS) (rel : GoString) (q : Path)
    (hnr : startsWith ['/'] rel = false)
    (hdd : ['.', '.'] ∉ stringsSplit rel '/') (h : resolve fs rel = some q) :
    q = fullPath fs rel := by
  unfold resolve at h
  split_ifs at h
  have := walk_filter fs _ _ q hdd h
  simpa [fullPath, startOf, hnr] using this

theorem memOpenFile_frame (fs : MemFS) (rel : GoString) (perm : Nat)
    (hnr : startsWith ['/'] rel = false)
    (hdd : ['.', '.'] ∉ stringsSplit rel '/') (p : Path) (hp : ¬ p <+: fullPath fs rel) :
    nodeAt (memOpenFile fs rel perm).1 p = nodeAt fs p := by
  unfold memOpenFile
  cases hr : resolve fs rel with
  | none => rfl
  | some q =>
    have hq : q ≠ p := by
      rw [resolve_fullPath fs rel q hnr hdd hr]
      intro e
      exact hp (e ▸ List.prefix_refl _)
    simp only
    split_ifs
    · rfl
    · cases hl : nodeAt fs q with
      | none =>
        simp only
        cases hpar : nodeAt fs q.dropLast with
        | none => rfl
        | some nd =>
          cases nd with
          | file m0 c0 => rfl
          | dir pm =>
            simp only
            split_ifs
            · exact nodeAt_put_ne fs q p _ hq
            · rfl
      | some n =>
        cases n with
        | dir m0 => rfl
        | file m0 c0 =>
          simp only
          split_ifs
          · exact nodeAt_put_ne fs q p _ hq
          · rfl

theorem memCopyN_frame (fs : MemFS) (rel : GoString) (rc : List Nat) (n : Int)
    (hnr : startsWith ['/'] rel = false)
    (hdd : ['.', '.'] ∉ stringsSplit rel '/') (p : Path) (hp : ¬ p <+: fullPath fs rel) :
    nodeAt (memCopyN fs rel rc n).1 p = nodeAt fs p := by
  unfold memCopyN
  cases hr : resolve fs rel with
  | none => rfl
  | some q =>
    have hq : q ≠ p := by
      rw [resolve_fullPath fs rel q hnr hdd hr]
      intro e
      exact hp (e ▸ List.prefix_refl _)
    simp only
    cases hl : nodeAt fs q with
    | none => rfl
    | some nd =>
      cases nd with
      | dir m0 => rfl
      | file m0 c0 => exact nodeAt_put_ne fs q p _ hq

theorem materialize_frame (a : Except Error (List File)) (z : File) (rel : GoString)
    (d : Bool) (s : RunState MemFS) (hnr : startsWith ['/'] rel = false)
    (hdd : ['.', '.'] ∉ stringsSplit rel '/') (p : Path)
    (hp : ¬ p <+: fullPath s.world rel) :
    nodeAt (materialize (memOS a) z rel d s).state.world p = nodeAt s.world p := by
  have hc : nodeAt (createPath (memOS a) s.world rel z.Mode).1 p = nodeAt s.world p :=
    memMkdirAll_frame s.world rel z.Mode hnr hdd p hp
  have hcwd : (createPath (memOS a) s.world rel z.Mode).1.cwd = s.world.cwd :=
    (memMkdirAll_extends s.world (filepathDir rel) z.Mode).1
  have hp1 : ¬ p <+: fullPath (createPath (memOS a) s.world rel z.Mode).1 rel := by
    simpa [fullPath, hcwd] using hp
  have hw : ∀ rc, nodeAt (writeFile (memOS a) (createPath (memOS a) s.world rel z.Mode).1
      rc z.UncompressedSize64 rel z.Mode).1 p = nodeAt s.world p := by
    intro rc
    rw [← hc]
    unfold writeFile
    have ho := memOpenFile_frame (createPath (memOS a) s.world rel z.Mode).1 rel z.Mode
      hnr hdd p hp1
    have hocwd := (memOpenFile_extends (createPath (memOS a) s.world rel z.Mode).1 rel
      z.Mode).1
    cases hof : (memOS a).OpenFile (createPath (memOS a) s.world rel z.Mode).1 rel z.Mode with
    | mk w1 e =>
      have heq : memOpenFile (createPath (memOS a) s.world rel z.Mode).1 rel z.Mode = (w1, e) :=
        hof
      rw [heq] at ho hocwd
      cases e with
      | some err => exact ho
      | none =>
        simp only
        rw [← ho]
        apply memCopyN_frame w1 rel rc _ hnr hdd p
        have hw1 : w1.cwd = (createPath (memOS a) s.world rel z.Mode).1.cwd := hocwd
        have hfull : fullPath w1 rel
            = fullPath (createPath (memOS a) s.world rel z.Mode).1 rel := by
          simp [fullPath, hw1]
        rw [hfull]
        exact hp1
  unfold materialize
  cases z.Open with
  | error e => rfl
  | ok rc =>
    simp only
    split
    · exact hc
    · split
      · split <;> exact hw rc
      · exact hc

theorem template_parts (rel : GoString) (h : stringsIndex rel templateSlash = 0) :
    startsWith ['/'] rel = false ∧
    ∃ t, stringsSplit rel '/' = templateName :: stringsSplit t '/' := by
  obtain ⟨t, rfl⟩ := (startsWith_iff _ _).mp ((stringsIndex_eq_zero _ _).mp h)
  refine ⟨rfl, t, ?_⟩
  have e : templateSlash ++ t = templateName ++ '/' :: t := rfl
  rw [e]
  exact stringsSplit_append _ _ _ (by decide)

theorem fullPath_of_language (fs : MemFS) (rel : GoString)
    (h0 : stringsIndex rel templateSlash = 0)
    (hlen : 2 < (stringsSplit rel '/').length)
    (hn : isNamed (elemAt (stringsSplit rel '/') 1) = true) :
    ∃ X, fullPath fs rel = fs.cwd ++ templateName :: elemAt (stringsSplit rel '/') 1 :: X := by
  obtain ⟨_, t, ht⟩ := template_parts rel h0
  rw [ht] at hlen hn
  unfold fullPath
  rw [ht]
  cases hs : stringsSplit t '/' with
  | nil => rw [hs] at hlen; simp at hlen
  | cons lang r =>
    rw [hs] at hn
    have hlang : elemAt (templateName :: lang :: r) 1 = lang := rfl
    rw [hlang] at hn ⊢
    have htpl : isNamed templateName = true := by decide
    exact ⟨r.filter isNamed, by simp [List.filter_cons, htpl, hn]⟩

theorem not_under_other (fs : MemFS) (L lang : GoString) (X p : Path) (hne : lang ≠ L)
    (hp : languageDir fs L <+: p) : ¬ p <+: fs.cwd ++ templateName :: lang :: X := by
  intro h
  have h2 := hp.trans h
  unfold languageDir at h2
  rw [List.prefix_append_right_inj] at h2
  simp only [List.cons_prefix_cons] at h2
  exact hne h2.2.1.symm

theorem canWriteLanguage_empty {σ : Type} (os : OS σ) (w : σ) (m : Option Cache)
    (overwrite : Bool) : (canWriteLanguage os w m [] overwrite).1 = false := by
  unfold canWriteLanguage
  cases m <;> simp

theorem expandEntry_world_extends (a : Except Error (List File)) (overwrite : Bool)
    (z : File) (s : RunState MemFS) :
    Extends s.world (expandEntry (memOS a) overwrite z s).state.world := by
  rw [expandEntry_eq]
  cases (classify (memOS a) overwrite (relativePathOf z) s).2 with
  | none =>
    simp only [Flow.state]
    rw [classify_world]
    exact extends_refl _
  | some d =>
    simp only
    have hc := memMkdirAll_extends (classify (memOS a) overwrite (relativePathOf z) s).1.world
      (filepathDir (relativePathOf z)) z.Mode
    have hw : ∀ rc, Extends (classify (memOS a) overwrite (relativePathOf z) s).1.world
        (writeFile (memOS a)
          (createPath (memOS a) (classify (memOS a) overwrite (relativePathOf z) s).1.world
            (relativePathOf z) z.Mode).1 rc z.UncompressedSize64 (relativePathOf z)
          z.Mode).1 := by
      intro rc
      refine extends_trans hc ?_
      unfold writeFile
      have ho := memOpenFile_extends
        (createPath (memOS a) (classify (memOS a) overwrite (relativePathOf z) s).1.world
          (relativePathOf z) z.Mode).1 (relativePathOf z) z.Mode
      cases hof : (memOS a).OpenFile
          (createPath (memOS a) (classify (memOS a) overwrite (relativePathOf z) s).1.world
            (relativePathOf z) z.Mode).1 (relativePathOf z) z.Mode with
      | mk w1 e =>
        have heq : memOpenFile
            (createPath (memOS a) (classify (memOS a) overwrite (relativePathOf z) s).1.world
              (relativePathOf z) z.Mode).1 (relativePathOf z) z.Mode = (w1, e) := hof
        rw [heq] at ho
        cases e with
        | some err => exact ho
        | none => exact extends_trans ho (memCopyN_extends w1 _ rc _)
    rw [← classify_world (memOS a) overwrite (relativePathOf z) s]
    unfold materialize
    cases z.Open with
    | error e => exact extends_refl _
    | ok rc =>
      simp only
      split
      · exact hc
      · split
        · split <;> exact hw rc
        · exact hc

theorem expandEntry_sameUnder (a : Except Error (List File)) (L : GoString) (fs0 : MemFS)
    (z : File) (s : RunState MemFS) (hdd : NoDotDot z) (hcwd : s.world.cwd = fs0.cwd)
    (hden : Denied (memOS a) L s) (hdot : Denied (memOS a) ['.'] s)
    (hframe : SameUnder L fs0 s.world) :
    SameUnder L fs0 (expandEntry (memOS a) false z s).state.world := by
  have hcl_res := classify_result (memOS a) false (relativePathOf z) s
  have hcl_world := classify_world (memOS a) false (relativePathOf z) s
  rw [expandEntry_eq]
  cases hr : (classify (memOS a) false (relativePathOf z) s).2 with
  | none =>
    simp only [Flow.state]
    rw [hcl_world]
    exact hframe
  | some d =>
    simp only
    rw [hr] at hcl_res
    split_ifs at hcl_res with hc
    obtain ⟨h0, hlen, hcan⟩ := hc
    have hneL : elemAt (stringsSplit (relativePathOf z) '/') 1 ≠ L := by
      intro e
      rw [e] at hcan
      rw [(canWriteLanguage_denied (memOS a) s.world s.availableLanguages L hden.1 hden.2.1).1]
        at hcan
      cases hcan
    have hneDot : elemAt (stringsSplit (relativePathOf z) '/') 1 ≠ ['.'] := by
      intro e
      rw [e] at hcan
      rw [(canWriteLanguage_denied (memOS a) s.world s.availableLanguages ['.'] hdot.1
        hdot.2.1).1] at hcan
      cases hcan
    have hneNil : elemAt (stringsSplit (relativePathOf z) '/') 1 ≠ [] := by
      intro e
      rw [e, canWriteLanguage_empty] at hcan
      cases hcan
    have hn : isNamed (elemAt (stringsSplit (relativePathOf z) '/') 1) = true := by
      simp only [isNamed, decide_eq_true_eq]
      exact ⟨hneNil, hneDot⟩
    obtain ⟨X, hX⟩ := fullPath_of_language (classify (memOS a) false (relativePathOf z) s).1.world
      _ h0 hlen hn
    intro p hp
    have hp1 : languageDir (classify (memOS a) false (relativePathOf z) s).1.world L <+: p := by
      simpa [languageDir, hcl_world, hcwd] using hp
    rw [materialize_frame a z _ d _ (template_parts _ h0).1 hdd p
      (by rw [hX]; exact not_under_other _ L _ X p hneL hp1), hcl_world]
    exact hframe p hp

theorem expandLoop_sameUnder (a : Except Error (List File)) (L : GoString) (fs0 : MemFS)
    (files : List File) (s : RunState MemFS) (hdd : ∀ z ∈ files, NoDotDot z)
    (hcwd : s.world.cwd = fs0.cwd)
    (hden : Denied (memOS a) L s) (hdot : Denied (memOS a) ['.'] s)
    (hframe : SameUnder L fs0 s.world) :
    SameUnder L fs0 (expandLoop (memOS a) false files s).1.world := by
  induction files generalizing s with
  | nil => exact hframe
  | cons z zs ih =>
    have h1 := expandEntry_denied (memOS a) L (memOS_statStable a _) z s hden
    have h2 := expandEntry_denied (memOS a) ['.'] (memOS_statStable a _) z s hdot
    have h3 := expandEntry_sameUnder a L fs0 z s (hdd z (by simp)) hcwd hden hdot hframe
    have h4 := (expandEntry_world_extends a false z s).1
    have hdd2 : ∀ y ∈ zs, NoDotDot y := fun y hy => hdd y (List.mem_cons_of_mem _ hy)
    simp only [expandLoop]
    cases he : expandEntry (memOS a) false z s with
    | next s1 =>
      rw [he] at h1 h2 h3 h4
      exact ih s1 hdd2 (h4.trans hcwd) h1 h2 h3
    | brk s1 => rw [he] at h3; exact h3
    | ret s1 err => rw [he] at h3; exact h3

theorem templateDirectory_split (L : GoString) (hL : '/' ∉ L) :
    stringsSplit (templateDirectory ++ L) '/' = [['.'], templateName, L] := by
  have e : templateDirectory ++ L = ['.'] ++ '/' :: (templateName ++ '/' :: L) := rfl
  rw [e, stringsSplit_append _ _ _ (by decide), stringsSplit_append _ _ _ (by decide),
    stringsSplit_of_not_mem L '/' hL]

theorem memStat_dot (fs : MemFS) (L : GoString) (hL : PlainName L)
    (h : memStat fs (templateDirectory ++ L) = none) :
    memStat fs (templateDirectory ++ ['.']) = none := by
  obtain ⟨h1, h2, h3, h4⟩ := hL
  have hne : ∀ x : GoString, templateDirectory ++ x ≠ [] := by
    intro x e
    have := (List.append_eq_nil.mp e).1
    revert this
    decide
  have hstart : ∀ x : GoString, startOf fs (templateDirectory ++ x) = fs.cwd := by
    intro x
    have hnr : startsWith ['/'] (templateDirectory ++ x) = false := rfl
    simp [startOf, hnr]
  have e2 : (templateName : GoString) ≠ [] := by decide
  have e3 : (templateName : GoString) ≠ ['.'] := by decide
  have e4 : (templateName : GoString) ≠ ['.', '.'] := by decide
  unfold memStat resolve at h ⊢
  rw [if_neg (hne _), hstart, templateDirectory_split L h4] at h
  rw [if_neg (hne _), hstart, templateDirectory_split ['.'] (by decide)]
  cases hn0 : nodeAt fs fs.cwd with
  | none => simp [walk, hn0] at h
  | some nd0 =>
    cases nd0 with
    | file m0 c0 => simp [walk, hn0] at h
    | dir m0 =>
      by_cases hs0 : maySearch fs m0 = true
      · cases hn1 : nodeAt fs (fs.cwd ++ [templateName]) with
        | none => simp [walk, hn0, hs0, hn1, e2, e3, e4, h1] at h
        | some nd1 =>
          cases nd1 with
          | file m1 c1 => simp [walk, hn0, hs0, hn1, e2, e3, e4, h1] at h
          | dir m1 =>
            by_cases hs1 : maySearch fs m1 = true
            · simp [walk, hn0, hs0, hn1, hs1, e2, e3, e4]
            · simp [walk, hn0, hs0, hn1, hs1, e2, e3, e4, h1] at h
      · simp [walk, hn0, hs0] at h

/-- C2 (claim as stated fails): `./template/go` exists with a file
`handler.go` in it and `overwrite = false`; the archive has the directory
entry `root/template/node/` and the entry `root/template/node/../go/handler.go`
of language `node`.  No call is made for an entry of language `go`, yet the
file `./template/go/handler.go` is replaced. -/
theorem existing_language_overwritten_by_climbing_path :
    (memOS (.ok [nodeDir, climbing])).Stat withGo (templateDirectory ++ "go".toList) = none ∧
    languageOf climbing = "node".toList ∧
    nodeAt withGo (work ++ ["template".toList, "go".toList, "handler.go".toList])
      = some (Node.file 420 [1, 2, 3]) ∧
    nodeAt (expandTemplatesFromZip (memOS (.ok [nodeDir, climbing])) withGo masterZip
        false).final.world (work ++ ["template".toList, "go".toList, "handler.go".toList])
      = some (Node.file 420 [9]) ∧
    ¬ SameUnder "go".toList withGo
      (expandTemplatesFromZip (memOS (.ok [nodeDir, climbing])) withGo masterZip
        false).final.world := by
  refine ⟨by decide, by decide, by decide, by decide, ?_⟩
  intro h
  have h1 := h (work ++ ["template".toList, "go".toList, "handler.go".toList])
    ⟨["handler.go".toList], rfl⟩
  revert h1
  decide

/-- C2 (amended): when `./template/L` exists at the start and `overwrite =
false`, `expandTemplatesFromZip` makes no call (`z.Open()`, `createPath`,
`writeFile`) for any entry whose language is `L`; and when, in addition, `L`
is a plain name and no entry's relative path has a `..` element, every
location at or below `./template/L` holds after the run what it held
before. -/
theorem existing_language_untouched (files : List File) (fs : MemFS) (archive L : GoString)
    (hex : (memOS (.ok files)).Stat fs (templateDirectory ++ L) = none) :
    (∀ c ∈ (expandTemplatesFromZip (memOS (.ok files)) fs archive false).final.calls,
      languageOf c.entry ≠ L) ∧
    (PlainName L → (∀ z ∈ files, NoDotDot z) →
      SameUnder L fs (expandTemplatesFromZip (memOS (.ok files)) fs archive false).final.world)
    := by
  obtain ⟨hfinal, _⟩ :=
    expandTemplatesFromZip_final (memOS (.ok files)) fs archive false files rfl
  have hinit : Denied (memOS (.ok files)) L (RunState.init fs) :=
    ⟨hex, by simp [RunState.init, Cache.empty], by simp [RunState.init]⟩
  rw [hfinal]
  refine ⟨?_, ?_⟩
  · exact (expandLoop_denied (memOS (.ok files)) L (memOS_statStable _ _) files _ hinit).2.2
  · intro hL hdd
    have hdot : Denied (memOS (.ok files)) ['.'] (RunState.init fs) :=
      ⟨memStat_dot fs L hL hex, by simp [RunState.init, Cache.empty], by simp [RunState.init]⟩
    exact expandLoop_sameUnder (.ok files) L fs files _ hdd rfl hinit hdot (fun _ _ => rfl)

/-- C2 (amended), at Scenario B: `./template/go` exists, the archive is that of
Scenario A with its directory entries, and `L` is `go`. -/
theorem existing_language_untouched_witness :
    (∀ c ∈ (expandTemplatesFromZip (memOS (.ok [goDir, goHandler, nodeDir, nodeHandler]))
        withGo masterZip false).final.calls, languageOf c.entry ≠ "go".toList) ∧
    SameUnder "go".toList withGo
      (expandTemplatesFromZip (memOS (.ok [goDir, goHandler, nodeDir, nodeHandler]))
        withGo masterZip false).final.world :=
  ⟨(existing_language_untouched [goDir, goHandler, nodeDir, nodeHandler] withGo masterZip
      "go".toList (by decide)).1,
   (existing_language_untouched [goDir, goHandler, nodeDir, nodeHandler] withGo masterZip
      "go".toList (by decide)).2 (by decide) (by decide)⟩

/-! ## Scenario A -/

/-- C7 (claim as stated fails): for the archive whose entries are
`root/template/go/handler.go` and `root/template/node/handler.js`, in an empty
working directory with `overwrite = false` (ordinary user, umask `022`), the
returned `fetchedLanguages` is empty, not `["go", "node"]`, and
`template/go/handler.go` is not written: `createPath` makes `template` with
the file's mode `0644` and cannot make `template/go` in it. -/
theorem scenarioA_files_only_fetched :
    (expandTemplatesFromZip (memOS (.ok [goHandler, nodeHandler])) (emptyWork 18) masterZip
      false).fetchedLanguages = [] ∧
    (expandTemplatesFromZip (memOS (.ok [goHandler, nodeHandler])) (emptyWork 18) masterZip
      false).fetchedLanguages ≠ ["go".toList, "node".toList] ∧
    nodeAt (expandTemplatesFromZip (memOS (.ok [goHandler, nodeHandler])) (emptyWork 18)
      masterZip false).final.world
      (work ++ ["template".toList, "go".toList, "handler.go".toList]) = none := by
  refine ⟨?_, ?_, ?_⟩ <;> decide

/-- C7 (amended): for the archive with the entries `root/template/go/`,
`root/template/go/handler.go`, `root/template/node/`,
`root/template/node/handler.js` (directory entries of mode `0755`, files of
mode `0644` and `0755`), in an empty working directory with `overwrite =
false`, the function returns a nil error, `existingLanguages = []` and
`fetchedLanguages = ["go", "node"]`, and both files are written with their
content and with the permission bits of their entry that the umask does not
clear: `0644` and `0755` under umask `022`, `0600` and `0700` under umask
`077`. -/
theorem scenarioA :
    ((expandTemplatesFromZip (memOS (.ok [goDir, goHandler, nodeDir, nodeHandler]))
        (emptyWork 18) masterZip false).err = none ∧
      (expandTemplatesFromZip (memOS (.ok [goDir, goHandler, nodeDir, nodeHandler]))
        (emptyWork 18) masterZip false).existingLanguages = [] ∧
      (expandTemplatesFromZip (memOS (.ok [goDir, goHandler, nodeDir, nodeHandler]))
        (emptyWork 18) masterZip false).fetchedLanguages = ["go".toList, "node".toList] ∧
      nodeAt (expandTemplatesFromZip (memOS (.ok [goDir, goHandler, nodeDir, nodeHandler]))
        (emptyWork 18) masterZip false).final.world
        (work ++ ["template".toList, "go".toList, "handler.go".toList])
        = some (Node.file 420 [112, 107, 103]) ∧
      nodeAt (expandTemplatesFromZip (memOS (.ok [goDir, goHandler, nodeDir, nodeHandler]))
        (emptyWork 18) masterZip false).final.world
        (work ++ ["template".toList, "node".toList, "handler.js".toList])
        = some (Node.file 493 [47, 47])) ∧
    ((expandTemplatesFromZip (memOS (.ok [goDir, goHandler, nodeDir, nodeHandler]))
        (emptyWork 63) masterZip false).err = none ∧
      (expandTemplatesFromZip (memOS (.ok [goDir, goHandler, nodeDir, nodeHandler]))
        (emptyWork 63) masterZip false).existingLanguages = [] ∧
      (expandTemplatesFromZip (memOS (.ok [goDir, goHandler, nodeDir, nodeHandler]))
        (emptyWork 63) masterZip false).fetchedLanguages = ["go".toList, "node".toList] ∧
      nodeAt (expandTemplatesFromZip (memOS (.ok [goDir, goHandler, nodeDir, nodeHandler]))
        (emptyWork 63) masterZip false).final.world
        (work ++ ["template".toList, "go".toList, "handler.go".toList])
        = some (Node.file 384 [112, 107, 103]) ∧
      nodeAt (expandTemplatesFromZip (memOS (.ok [goDir, goHandler, nodeDir, nodeHandler]))
        (emptyWork 63) masterZip false).final.world
        (work ++ ["template".toList, "node".toList, "handler.js".toList])
        = some (Node.file 448 [47, 47])) := by
  refine ⟨⟨?_, ?_, ?_, ?_, ?_⟩, ⟨?_, ?_, ?_, ?_, ?_⟩⟩ <;> decide

end FaasCli
